import Mathlib

/-!
Verification of the NotaryQuickCopy data model, persistence codec, favorites
index, deletion and bundle transfer logic, shallowly embedded from the
repository sources (`models.py`, `utils.py`, `ui_explorer.py`,
`ui_file_view.py`, `bundle_io.py`).

Python dicts are modelled as association lists (`List (String × _)`) with
Python-dict semantics: insertion replaces in place or appends at the end,
lookup finds the first matching key, and iteration follows list order
(Python 3.7+ insertion order).  `uuid.uuid4()` is modelled by an explicit
id supply `gen : Nat → String` together with a counter; theorems that rely
on uuid freshness state it as an explicit hypothesis on `gen`.
-/

namespace NotaryQuickCopy

/-- Python-dict lookup: first entry with the given key. -/
def mlookup {α : Type} (m : List (String × α)) (k : String) : Option α :=
  (m.find? (fun p => p.1 = k)).map (·.2)

/-- Python-dict assignment `m[k] = v`: replace the value in place if the key
is present, otherwise append the new entry at the end. -/
def dinsert {α : Type} (m : List (String × α)) (k : String) (v : α) :
    List (String × α) :=
  match m with
  | [] => [(k, v)]
  | (k', v') :: rest =>
      if k' = k then (k, v) :: rest else (k', v') :: dinsert rest k v

/-- Python-dict `m.pop(k, None)`: remove the entry with the given key. -/
def dremove {α : Type} (m : List (String × α)) (k : String) :
    List (String × α) :=
  match m with
  | [] => []
  | (k', v') :: rest =>
      if k' = k then dremove rest k else (k', v') :: dremove rest k

/-- In-place mutation of the value stored under a key (Python object
mutation through an alias into the dict); no-op when the key is absent. -/
def dmodify {α : Type} (m : List (String × α)) (k : String) (f : α → α) :
    List (String × α) :=
  match m with
  | [] => []
  | (k', v') :: rest =>
      if k' = k then (k', f v') :: rest else (k', v') :: dmodify rest k f

/-- The keys of a dict, in iteration order. -/
def dkeys {α : Type} (m : List (String × α)) : List String := m.map (·.1)

/-- Python `d.update(d2)`: insert every entry of `d2` in iteration order. -/
def dupdate {α : Type} (m m2 : List (String × α)) : List (String × α) :=
  m2.foldl (fun acc p => dinsert acc p.1 p.2) m

end NotaryQuickCopy

namespace NotaryQuickCopy

/-- `NodeType = Literal["folder", "file", "shortcut"]` (models.py). -/
inductive NodeType where
  | folder
  | file
  | shortcut
deriving DecidableEq, Repr

/-- The string written for a node type by `db_to_dict`. -/
def NodeType.str : NodeType → String
  | .folder => "folder"
  | .file => "file"
  | .shortcut => "shortcut"

/-- One formatting tag span of a rich document (rich_text.py:
`{"name": tag, "ranges": [["1.0","1.4"], ...], "config": {...}}`). -/
structure TagSpan where
  name : String
  ranges : List (String × String)
  config : List (String × String)
deriving DecidableEq, Repr

/-- A rich document `{"text": ..., "tags": [...]}` (models.py / rich_text.py).
As a Python dict it always has its two keys, hence is always truthy. -/
structure RichDoc where
  text : String
  tags : List TagSpan
deriving DecidableEq, Repr

/-- `blank_rich_doc()` (models.py). -/
def blank_rich_doc : RichDoc := ⟨"", []⟩

/-- `FileContent` dataclass (models.py). -/
structure FileContent where
  read_doc : RichDoc
  copy_docs : List RichDoc
deriving DecidableEq, Repr

/-- `Node` dataclass (models.py): all fields present on every variant. -/
structure Node where
  id : String
  type : NodeType
  name : String
  children : List String := []
  content : Option FileContent := none
  target_id : Option String := none
deriving DecidableEq, Repr

/-- `Database` dataclass (models.py); `nodes` is a Python dict. -/
structure Database where
  quickcopy_root_id : String
  favorites_root_id : String
  nodes : List (String × Node)
deriving DecidableEq, Repr

/-- `blank_database()` (models.py), with the two generated uuids passed
explicitly (favorites root id is generated first). -/
def blank_database (favId qcId : String) : Database :=
  let fav_root : Node := { id := favId, type := .folder, name := "Favorites" }
  let qc_root : Node := { id := qcId, type := .folder, name := "QuickCopy" }
  { quickcopy_root_id := qc_root.id
    favorites_root_id := fav_root.id
    nodes := dinsert (dinsert [] fav_root.id fav_root) qc_root.id qc_root }

/-- A JSON field value as read through Python `dict.get` followed by an
`or default` truthiness test: the key may be absent, present with a falsy
value (`null`, `""`, `[]`, `{}`, `0`, `False`), or present with a truthy
value of the modelled shape. -/
inductive RawField (α : Type) where
  | absent
  | falsy
  | val (a : α)
deriving DecidableEq, Repr

/-- The raw JSON value stored under a node's `content` key, when it is a
dict.  Only the four keys the codec reads are modelled. -/
structure RawContentDict where
  read_doc : RawField RichDoc := .absent
  copy_docs : RawField (List RichDoc) := .absent
  read_text : RawField String := .absent
  copy_blocks : RawField (List String) := .absent
deriving DecidableEq, Repr

/-- A raw node entry of the JSON document; `none` on an `Option` field means
the key is absent (or `null`, where the code reads it with a plain `get`).
`content` is `none` when absent or falsy (the code reads it as
`d.get("content") or {}`, and a truthy non-dict behaves like `{}` in
`_upgrade_legacy_content`). -/
structure RawNode where
  id : Option String := none
  type : Option String := none
  name : Option String := none
  children : Option (List String) := none
  content : Option RawContentDict := none
  target_id : Option String := none
  pinned : Option Bool := none
deriving DecidableEq, Repr

/-- An entry of the raw `nodes` mapping: `junk` models a non-dict value,
which `db_from_dict` skips. -/
inductive RawEntry where
  | junk
  | node (r : RawNode)
deriving DecidableEq, Repr

/-- The top-level JSON document handed to `db_from_dict` (when it is a
dict; a non-dict input short-circuits to `blank_database`). -/
structure RawDB where
  nodes : List (String × RawEntry) := []
  root_id : Option String := none
  quickcopy_root_id : Option String := none
  favorites_root_id : Option String := none
deriving DecidableEq, Repr

/-- Python truthiness of an optional string (`if x:`): present and
non-empty. -/
def truthyStr : Option String → Bool
  | none => false
  | some s => s ≠ ""

/-- `_upgrade_legacy_content` (models.py), on a dict content value. -/
def upgrade_legacy_content (c : RawContentDict) : FileContent :=
  if c.read_doc ≠ .absent ∨ c.copy_docs ≠ .absent then
    -- new format
    let read_doc := match c.read_doc with
      | .val d => d
      | _ => blank_rich_doc
    let copy_docs := match c.copy_docs with
      | .val l => if l.isEmpty then [blank_rich_doc] else l
      | _ => [blank_rich_doc]
    { read_doc := read_doc, copy_docs := copy_docs }
  else
    -- legacy format
    let read_text := match c.read_text with
      | .val s => s
      | _ => ""
    let copy_blocks := match c.copy_blocks with
      | .val l => if l.isEmpty then [""] else l
      | _ => [""]
    { read_doc := { text := read_text, tags := [] }
      copy_docs := copy_blocks.map (fun s => { text := s, tags := [] }) }

/-- One iteration of the parsing loop of `db_from_dict` (models.py lines
123-142): skip non-dict entries, parse the rest defensively, key the dict
by the parsed node's own `id` field. -/
def parseOneRaw (acc : List (String × Node)) (p : String × RawEntry) :
    List (String × Node) :=
  match p.2 with
  | .junk => acc
  | .node d =>
      let ntype := d.type.getD "folder"
      let content : Option FileContent :=
        if ntype = "file" then
          some (upgrade_legacy_content (d.content.getD {}))
        else none
      let node : Node :=
        { id := d.id.getD p.1
          type :=
            if ntype = "folder" then .folder
            else if ntype = "file" then .file
            else if ntype = "shortcut" then .shortcut
            else .folder
          name := d.name.getD "Untitled"
          children := d.children.getD []
          content := content
          target_id := d.target_id }
      dinsert acc node.id node

/-- The parsing loop of `db_from_dict` (models.py lines 123-142). -/
def parseRawNodes (nodesRaw : List (String × RawEntry)) :
    List (String × Node) :=
  nodesRaw.foldl parseOneRaw []

/-- The favorites scan both views run over the favorites root's children:
is this child a shortcut node targeting the given file?  (The loop body of
`is_favorited`, `_ensure_favorite_shortcut`, `_add_shortcut_for_target` and
`_remove_shortcut_for_target`.) -/
def favScanPred (m : List (String × Node)) (file_id : String)
    (cid : String) : Bool :=
  match mlookup m cid with
  | some n => n.type = .shortcut && n.target_id = some file_id
  | none => false

/-- `_ensure_favorite_shortcut` (models.py), threading the uuid counter.
The generated shortcut is inserted into `nodes` before the favorites root's
children list (an alias fetched earlier) is appended to; if the generated
id collides with the favorites root id, the append lands on the replaced,
detached object and is lost, which the conditional reproduces. -/
def ensure_favorite_shortcut (gen : Nat → String) (st : Database × Nat)
    (file_id : String) : Database × Nat :=
  let db := st.1
  let c := st.2
  match mlookup db.nodes db.favorites_root_id with
  | none => (db, c)
  | some fav_root =>
      if fav_root.type = .folder then
        if fav_root.children.any (favScanPred db.nodes file_id) then
          (db, c)
        else
          match mlookup db.nodes file_id with
          | some target =>
              if target.type = .file then
                let sc : Node :=
                  { id := gen c, type := .shortcut, name := target.name
                    target_id := some file_id }
                let nodes2 := dinsert db.nodes sc.id sc
                let nodes3 :=
                  if sc.id = db.favorites_root_id then nodes2
                  else dmodify nodes2 db.favorites_root_id
                    (fun f => { f with children := f.children ++ [sc.id] })
                ({ db with nodes := nodes3 }, c + 1)
              else (db, c)
          | none => (db, c)
      else (db, c)

/-- One iteration of the pinned-flag migration loop of `db_from_dict`
(models.py lines 170-174). -/
def pinnedStep (gen : Nat → String) (st : Database × Nat)
    (p : String × RawEntry) : Database × Nat :=
  match p.2 with
  | .node raw =>
      if raw.pinned = some true then
        ensure_favorite_shortcut gen st (raw.id.getD p.1)
      else st
  | .junk => st

/-- `db_from_dict` (models.py), with the uuid supply made explicit.  The
counter starts at 0; `blank_database` consumes ids 0 (favorites root) and 1
(quickcopy root) on the legacy path, a synthesized favorites root consumes
id 0 on the new-format path, and each favorites shortcut created by the
pinned migration consumes one id. -/
def db_from_dict (gen : Nat → String) (data : RawDB) : Database :=
  let nodesRaw := data.nodes
  let legacy_root_id := data.root_id
  let nodes := parseRawNodes nodesRaw
  let qc_root := data.quickcopy_root_id
  let fav_root := data.favorites_root_id
  if !truthyStr qc_root ∨ mlookup nodes (qc_root.getD "") = none then
    -- legacy: build new roots + attach old root under quickcopy
    let db := blank_database (gen 0) (gen 1)
    if truthyStr legacy_root_id &&
        (match mlookup nodes (legacy_root_id.getD "") with
         | some n => n.type == NodeType.folder
         | none => false) then
      let nodes2 := dupdate db.nodes nodes
      let nodes3 := dmodify nodes2 db.quickcopy_root_id
        (fun n => { n with children := n.children ++ [legacy_root_id.getD ""] })
      { db with nodes := nodes3 }
    else
      { db with nodes := dupdate db.nodes nodes }
  else
    let qc := qc_root.getD ""
    -- ensure favorites root, then run the pinned migration
    if !truthyStr fav_root ∨ mlookup nodes (fav_root.getD "") = none then
      let fav : Node := { id := gen 0, type := .folder, name := "Favorites" }
      let db : Database :=
        { quickcopy_root_id := qc, favorites_root_id := fav.id
          nodes := dinsert nodes fav.id fav }
      (nodesRaw.foldl (pinnedStep gen) (db, 1)).1
    else
      let db : Database :=
        { quickcopy_root_id := qc, favorites_root_id := fav_root.getD ""
          nodes := nodes }
      (nodesRaw.foldl (pinnedStep gen) (db, 0)).1

/-- `db_to_dict` (models.py): serialize one node to its raw dict shape. -/
def node_to_raw (n : Node) : RawEntry :=
  .node
    { id := some n.id
      type := some n.type.str
      name := some n.name
      children := some n.children
      content :=
        match n.type, n.content with
        | .file, some c =>
            some { read_doc := .val c.read_doc, copy_docs := .val c.copy_docs }
        | _, _ => none
      target_id := n.target_id
      pinned := none }

/-- `db_to_dict` (models.py). -/
def db_to_dict (db : Database) : RawDB :=
  { nodes := db.nodes.map (fun p => (p.1, node_to_raw p.2))
    root_id := none
    quickcopy_root_id := some db.quickcopy_root_id
    favorites_root_id := some db.favorites_root_id }

/-- Python's `str.strip()`: drop whitespace from both ends. -/
def strip (s : String) : String :=
  ⟨((s.data.dropWhile Char.isWhitespace).reverse.dropWhile
      Char.isWhitespace).reverse⟩

/-- `safe_name` (utils.py). -/
def safe_name (name : String) : String :=
  let t := strip name
  if t = "" then "Untitled" else t

end NotaryQuickCopy

namespace NotaryQuickCopy

/-- `ExplorerView.is_favorited` (ui_explorer.py); identical logic in
`FileView._is_favorited` (ui_file_view.py). -/
def is_favorited (db : Database) (file_id : String) : Bool :=
  match mlookup db.nodes db.favorites_root_id with
  | none => false
  | some fav_root =>
      if fav_root.type = .folder then
        fav_root.children.any (favScanPred db.nodes file_id)
      else false

/-- `ExplorerView._add_shortcut_for_target` (ui_explorer.py), threading the
uuid counter.  As in `ensure_favorite_shortcut`, the child append is lost
if the generated id collides with the favorites root id. -/
def add_shortcut_for_target (gen : Nat → String) (st : Database × Nat)
    (file_id : String) : Database × Nat :=
  let db := st.1
  let c := st.2
  match mlookup db.nodes file_id, mlookup db.nodes db.favorites_root_id with
  | some target, some fav_root =>
      if target.type = .file ∧ fav_root.type = .folder then
        if fav_root.children.any (favScanPred db.nodes file_id) then
          (db, c)
        else
          let sc : Node :=
            { id := gen c, type := .shortcut, name := target.name
              target_id := some file_id }
          let nodes2 := dinsert db.nodes sc.id sc
          let nodes3 :=
            if sc.id = db.favorites_root_id then nodes2
            else dmodify nodes2 db.favorites_root_id
              (fun f => { f with children := f.children ++ [sc.id] })
          ({ db with nodes := nodes3 }, c + 1)
      else (db, c)
  | _, _ => (db, c)

/-- `ExplorerView._remove_shortcut_for_target` (ui_explorer.py): remove the
first favorites shortcut targeting the file (one occurrence from the
children list) and pop it from the node mapping. -/
def remove_shortcut_for_target (db : Database) (file_id : String) :
    Database :=
  match mlookup db.nodes db.favorites_root_id with
  | none => db
  | some fav_root =>
      if fav_root.type = .folder then
        match fav_root.children.find? (favScanPred db.nodes file_id) with
        | some cid =>
            let nodes2 := dmodify db.nodes db.favorites_root_id
              (fun f => { f with children := f.children.erase cid })
            { db with nodes := dremove nodes2 cid }
        | none => db
      else db

/-- `ExplorerView._remove_shortcut` (ui_explorer.py): drop the shortcut id
from the favorites root's children (all occurrences, via a list
comprehension) and pop the node. -/
def remove_shortcut (db : Database) (shortcut_id : String) : Database :=
  let nodes1 :=
    match mlookup db.nodes db.favorites_root_id with
    | some fav_root =>
        if fav_root.type = .folder then
          dmodify db.nodes db.favorites_root_id
            (fun f => { f with children := f.children.filter (· ≠ shortcut_id) })
        else db.nodes
    | none => db.nodes
  { db with nodes := dremove nodes1 shortcut_id }

/-- `ExplorerView.toggle_favorite_selected` (ui_explorer.py), for a selected
node that resolves in the mapping. -/
def toggle_favorite_selected (gen : Nat → String) (st : Database × Nat)
    (node_id : String) : Database × Nat :=
  match mlookup st.1.nodes node_id with
  | none => st
  | some node =>
      if node.type = .shortcut then (remove_shortcut st.1 node_id, st.2)
      else if node.type ≠ .file then st
      else if is_favorited st.1 node_id then
        (remove_shortcut_for_target st.1 node_id, st.2)
      else add_shortcut_for_target gen st node_id

/-- `FileView._toggle_favorite` (ui_file_view.py): same removal loop; the
add branch creates the shortcut without a duplicate scan (it is guarded by
`_is_favorited`). -/
def fileview_toggle_favorite (gen : Nat → String) (st : Database × Nat)
    (file_id : String) : Database × Nat :=
  let db := st.1
  let c := st.2
  match mlookup db.nodes db.favorites_root_id with
  | none => st
  | some fav_root =>
      if fav_root.type = .folder then
        if is_favorited db file_id then (remove_shortcut_for_target db file_id, c)
        else
          match mlookup db.nodes file_id with
          | some target =>
              if target.type = .file then
                let sc : Node :=
                  { id := gen c, type := .shortcut, name := target.name
                    target_id := some file_id }
                let nodes2 := dinsert db.nodes sc.id sc
                let nodes3 :=
                  if sc.id = db.favorites_root_id then nodes2
                  else dmodify nodes2 db.favorites_root_id
                    (fun f => { f with children := f.children ++ [sc.id] })
                ({ db with nodes := nodes3 }, c + 1)
              else (db, c)
          | none => (db, c)
      else st

/-- `ExplorerView.create_folder` (ui_explorer.py), after the name dialog:
the parent is the current folder, falling back to the quickcopy root. -/
def create_folder (gen : Nat → String) (st : Database × Nat)
    (current_folder_id : String) (name : String) : Database × Nat :=
  let db := st.1
  let c := st.2
  let parentKey :=
    if (mlookup db.nodes current_folder_id).isSome then current_folder_id
    else db.quickcopy_root_id
  match mlookup db.nodes parentKey with
  | none => (db, c)
  | some parent =>
      if parent.type = .folder then
        let new_node : Node :=
          { id := gen c, type := .folder, name := safe_name name }
        let nodes2 := dinsert db.nodes new_node.id new_node
        let nodes3 :=
          if new_node.id = parentKey then nodes2
          else dmodify nodes2 parentKey
            (fun p => { p with children := p.children ++ [new_node.id] })
        ({ db with nodes := nodes3 }, c + 1)
      else (db, c)

/-- `ExplorerView.create_file` (ui_explorer.py), after the name dialog. -/
def create_file (gen : Nat → String) (st : Database × Nat)
    (current_folder_id : String) (name : String) : Database × Nat :=
  let db := st.1
  let c := st.2
  let parentKey :=
    if (mlookup db.nodes current_folder_id).isSome then current_folder_id
    else db.quickcopy_root_id
  match mlookup db.nodes parentKey with
  | none => (db, c)
  | some parent =>
      if parent.type = .folder then
        let new_node : Node :=
          { id := gen c, type := .file, name := safe_name name
            content := some { read_doc := blank_rich_doc
                              copy_docs := [blank_rich_doc] } }
        let nodes2 := dinsert db.nodes new_node.id new_node
        let nodes3 :=
          if new_node.id = parentKey then nodes2
          else dmodify nodes2 parentKey
            (fun p => { p with children := p.children ++ [new_node.id] })
        ({ db with nodes := nodes3 }, c + 1)
      else (db, c)

/-- One iteration of the favorites name-sync loop of
`ExplorerView.rename_selected`: if this favorites child is a shortcut
targeting the renamed file, update its display name. -/
def renameScStep (nid newName : String) (acc : List (String × Node))
    (cid : String) : List (String × Node) :=
  match mlookup acc cid with
  | some sc =>
      if sc.type = .shortcut ∧ sc.target_id = some nid then
        dmodify acc cid (fun s => { s with name := newName })
      else acc
  | none => acc

/-- `ExplorerView.rename_selected` (ui_explorer.py), after the dialog
returned `new_name`.  A selected shortcut whose target resolves redirects
the rename to the target. -/
def rename_selected (db : Database) (sel_id : String) (new_name : String) :
    Database :=
  match mlookup db.nodes sel_id with
  | none => db
  | some node0 =>
      if sel_id = db.favorites_root_id ∨ sel_id = db.quickcopy_root_id then db
      else
        let nid :=
          if node0.type = .shortcut then
            match node0.target_id with
            | some t => if (mlookup db.nodes t).isSome then t else sel_id
            | none => sel_id
          else sel_id
        match mlookup db.nodes nid with
        | none => db
        | some node =>
            let newName := safe_name new_name
            let nodes1 := dmodify db.nodes nid
              (fun n => { n with name := newName })
            if node.type = .file then
              match mlookup nodes1 db.favorites_root_id with
              | some fav_root =>
                  if fav_root.type = .folder then
                    let nodes2 := fav_root.children.foldl
                      (renameScStep nid newName) nodes1
                    { db with nodes := nodes2 }
                  else { db with nodes := nodes1 }
              | none => { db with nodes := nodes1 }
            else { db with nodes := nodes1 }

/-- `ExplorerView._find_parent_folder` (ui_explorer.py): the first folder
(in dict iteration order) whose children contain the id. -/
def find_parent_key (nodes : List (String × Node)) (child_id : String) :
    Option String :=
  (nodes.find? (fun p => p.2.type = .folder && child_id ∈ p.2.children)).map (·.1)

/-- `ExplorerView._delete_subtree` (ui_explorer.py): post-order recursive
removal.  The Python recursion terminates exactly when the children graph
is acyclic; the fuel parameter (instantiated with `nodes.length + 1` by the
caller, enough for any acyclic graph) makes it structural. -/
def delete_subtree (fuel : Nat) (nodes : List (String × Node))
    (node_id : String) : List (String × Node) :=
  match fuel with
  | 0 => nodes
  | fuel + 1 =>
      match mlookup nodes node_id with
      | none => nodes
      | some node =>
          let nodes1 :=
            if node.type = .folder then
              node.children.foldl (fun acc cid => delete_subtree fuel acc cid)
                nodes
            else nodes
          dremove nodes1 node_id

/-- The parent-detach step of `ExplorerView.delete_selected`: drop the
node from its parent folder's children (all occurrences, via a list
comprehension), if a parent folder is found. -/
def parent_filtered (m : List (String × Node)) (nid : String) :
    List (String × Node) :=
  match find_parent_key m nid with
  | some pk => dmodify m pk
      (fun p => { p with children := p.children.filter (· ≠ nid) })
  | none => m

/-- The non-shortcut branch of `ExplorerView.delete_selected`: detach from
the parent, drop the favorites shortcut if deleting a file, then delete
the subtree. -/
def delete_nonshortcut (db : Database) (node_id : String) (node : Node) :
    Database :=
  let db1 := { db with nodes := parent_filtered db.nodes node_id }
  let db2 :=
    if node.type = .file then remove_shortcut_for_target db1 node_id
    else db1
  { db2 with
    nodes := delete_subtree (db2.nodes.length + 1) db2.nodes node_id }

/-- `ExplorerView.delete_selected` (ui_explorer.py), for a selected node
that resolves, with both confirmation dialogs answered yes.  The
view-state retargeting touches only `current_folder_id`, not the store. -/
def delete_selected (db : Database) (node_id : String) : Database :=
  match mlookup db.nodes node_id with
  | none => db
  | some node =>
      if node_id = db.favorites_root_id ∨ node_id = db.quickcopy_root_id then db
      else if node.type = .shortcut then remove_shortcut db node_id
      else delete_nonshortcut db node_id node

end NotaryQuickCopy

namespace NotaryQuickCopy

/-- The content dict written by `bundle_io.export_bundle` for non-folder
nodes: `{"read_rich": ..., "copy_blocks": [...]}` (stale field names that
no longer exist on `FileContent`). -/
structure ExportContent where
  read_rich : RichDoc
  copy_blocks : List RichDoc
deriving DecidableEq, Repr

/-- The raw dict `bundle_io.export_bundle` stores per node.  The emitted
dict has no `target_id` key at all; that is modelled by the field being
`none` (absent). -/
structure BundleRawNode where
  id : String
  type : String
  name : String
  children : List String
  content : Option ExportContent
  target_id : Option String := none
deriving DecidableEq, Repr

/-- A bundle `{bundle_root_id, nodes}` (bundle_io.py). -/
structure Bundle where
  bundle_root_id : String
  nodes : List (String × BundleRawNode)
deriving DecidableEq, Repr

/-- `bundle_io._collect_subtree`: pre-order walk recursing only through
folders.  The fuel (callers pass `nodes.length + 1`) makes the Python
recursion, which terminates exactly on acyclic graphs, structural. -/
def collect_subtree (fuel : Nat) (db : Database) (node_id : String) :
    List String :=
  match fuel with
  | 0 => []
  | fuel + 1 =>
      match mlookup db.nodes node_id with
      | none => []
      | some n =>
          node_id ::
            (if n.type = .folder then
              n.children.foldl (fun acc cid => acc ++ collect_subtree fuel db cid) []
            else [])

/-- `bundle_io.export_bundle`.  For a non-folder node the code evaluates
`n.content.read_rich` / `n.content.copy_blocks`; `FileContent` has no such
attributes, so whenever `n.content` is truthy (i.e. not `None`) the call
raises `AttributeError`, modelled as `Except.error`. -/
def export_bundle (db : Database) (folder_id : String) :
    Except String Bundle := do
  let ids := collect_subtree (db.nodes.length + 1) db folder_id
  let nodes ← ids.foldlM
    (fun acc nid =>
      match mlookup db.nodes nid with
      | none => pure acc
      | some n => do
          let content : Option ExportContent ←
            if n.type = NodeType.folder then pure none
            else
              match n.content with
              | some _ =>
                  Except.error "AttributeError: FileContent has no attribute read_rich"
              | none =>
                  pure (some { read_rich := blank_rich_doc
                               copy_blocks := [blank_rich_doc] })
          pure (dinsert acc nid
            { id := n.id, type := n.type.str, name := n.name
              children := n.children, content := content }))
    []
  pure { bundle_root_id := folder_id, nodes := nodes }

/-- The node-creation loop of `bundle_io.import_bundle_into_folder`.  For a
`file` entry the code executes `from models import FileContent, blank_rich`,
which raises `ImportError` (`models` defines no `blank_rich`), leaving the
nodes inserted so far in place; that abort is the `false` result.  Bundle
`type` strings are taken from `export_bundle`'s output, so the coercion to
`NodeType` below is exact on them. -/
def import_nodes_loop (idMap : List (String × String))
    (entries : List (String × BundleRawNode))
    (nodes : List (String × Node)) : List (String × Node) × Bool :=
  match entries with
  | [] => (nodes, true)
  | (old, d) :: rest =>
      match mlookup idMap old with
      | none => (nodes, true)
      | some newnid =>
          if d.type = "file" then (nodes, false)
          else
            let ntype : NodeType :=
              if d.type = "shortcut" then .shortcut else .folder
            let node : Node :=
              { id := newnid, type := ntype, name := d.name
                children :=
                  if ntype = .folder then d.children.filterMap (mlookup idMap)
                  else []
                content := none, target_id := none }
            import_nodes_loop idMap rest (dinsert nodes newnid node)

/-- `bundle_io.import_bundle_into_folder`, threading the uuid counter.  The
result's boolean mirrors the returned success flag, with the uncaught
`ImportError` on file entries reported as a failure that keeps the partial
mutation. -/
def import_bundle_into_folder (gen : Nat → String) (st : Database × Nat)
    (bundle : Bundle) (target_folder_id : String) :
    (Database × Nat) × Bool × String :=
  let db := st.1
  let c := st.2
  match mlookup db.nodes target_folder_id with
  | none => ((db, c), false, "Target folder is invalid.")
  | some target =>
      if target.type ≠ .folder then
        ((db, c), false, "Target folder is invalid.")
      else if bundle.nodes.isEmpty ∨ bundle.bundle_root_id = "" ∨
          (mlookup bundle.nodes bundle.bundle_root_id).isNone then
        ((db, c), false, "Bundle is missing required data.")
      else
        -- full remap: a fresh id for every bundle key
        let idMap : List (String × String) :=
          (dkeys bundle.nodes).enum.map (fun p => (p.2, gen (c + p.1)))
        let c1 := c + bundle.nodes.length
        match import_nodes_loop idMap bundle.nodes db.nodes with
        | (nodes1, false) =>
            (({ db with nodes := nodes1 }, c1), false, "ImportError: blank_rich")
        | (nodes1, true) =>
            match mlookup idMap bundle.bundle_root_id with
            | none => (({ db with nodes := nodes1 }, c1), true, "Imported.")
            | some importedRoot =>
                let nodes2 := dmodify nodes1 target_folder_id
                  (fun t => { t with children := t.children ++ [importedRoot] })
                (({ db with nodes := nodes2 }, c1), true, "Imported.")

/-- The id remap of `ExplorerView.import_bundle` (ui_explorer.py): a fresh
id only for bundle ids that collide with a pre-existing id; non-colliding
ids are kept as they are.  `uuid.uuid4()` is called once per collision.
One loop iteration: -/
def idMapStep (gen : Nat → String) (dbNodes : List (String × Node))
    (st : List (String × String) × Nat) (old : String) :
    List (String × String) × Nat :=
  if (mlookup dbNodes old).isSome then (st.1 ++ [(old, gen st.2)], st.2 + 1)
  else (st.1 ++ [(old, old)], st.2)

/-- The full id-remap loop of `ExplorerView.import_bundle`. -/
def build_id_map (gen : Nat → String) (dbNodes : List (String × Node))
    (olds : List String) : List (String × String) × Nat :=
  olds.foldl (idMapStep gen dbNodes) ([], 0)

/-- First pass of `ExplorerView.import_bundle`: create one remapped node per
incoming entry (children filled in by the second pass). -/
def import_remap_step (idMap : List (String × String))
    (acc : List (String × Node)) (p : String × Node) :
    List (String × Node) :=
  match mlookup idMap p.1 with
  | none => acc
  | some newid =>
      let node := p.2
      let newnode : Node :=
        { id := newid, type := node.type, name := node.name
          children := []
          content := node.content
          target_id :=
            if node.type = .shortcut then node.target_id.bind (mlookup idMap)
            else node.target_id }
      dinsert acc newid newnode

/-- Second pass of `ExplorerView.import_bundle`: rewrite each imported
folder's children through the remap, dropping unmapped refs. -/
def import_children_step (idMap : List (String × String))
    (acc : List (String × Node)) (p : String × Node) :
    List (String × Node) :=
  if p.2.type = .folder then
    match mlookup idMap p.1 with
    | some newid =>
        dmodify acc newid
          (fun n => { n with children := p.2.children.filterMap (mlookup idMap) })
    | none => acc
  else acc

/-- `ExplorerView.import_bundle`: attach the remapped incoming quickcopy
root under the current folder (falling back to our quickcopy root). -/
def import_attach_qc (idMap : List (String × String)) (db : Database)
    (incoming : Database) (nodes2 : List (String × Node))
    (current_folder_id : String) : List (String × Node) :=
  let attachKey :=
    match mlookup nodes2 current_folder_id with
    | some n => if n.type = .folder then current_folder_id else db.quickcopy_root_id
    | none => db.quickcopy_root_id
  match mlookup idMap incoming.quickcopy_root_id with
  | some qcIn =>
      if qcIn ≠ "" ∧ (mlookup nodes2 qcIn).isSome then
        dmodify nodes2 attachKey
          (fun a => { a with children := a.children ++ [qcIn] })
      else nodes2
  | none => nodes2

/-- `ExplorerView.import_bundle`: merge the remapped incoming favorites
children into our favorites root, dropping duplicates. -/
def import_merge_fav (idMap : List (String × String)) (db : Database)
    (incoming : Database) (nodes3 : List (String × Node)) :
    List (String × Node) :=
  match mlookup idMap incoming.favorites_root_id with
  | some favIn =>
      if favIn ≠ "" then
        match mlookup nodes3 favIn with
        | some srcFav =>
            dmodify nodes3 db.favorites_root_id
              (fun myFav =>
                { myFav with
                  children := srcFav.children.foldl
                    (fun acc cid => if cid ∈ acc then acc else acc ++ [cid])
                    myFav.children })
        | none => nodes3
      else nodes3
  | none => nodes3

/-- `ExplorerView.import_bundle` (ui_explorer.py), after the chosen file has
been parsed by `db_from_dict` into `incoming`. -/
def explorer_import_bundle (gen : Nat → String) (db : Database)
    (incoming : Database) (current_folder_id : String) : Database :=
  let idMap := (build_id_map gen db.nodes (dkeys incoming.nodes)).1
  let nodes1 := incoming.nodes.foldl (import_remap_step idMap) db.nodes
  let nodes2 := incoming.nodes.foldl (import_children_step idMap) nodes1
  let nodes3 := import_attach_qc idMap db incoming nodes2 current_folder_id
  let nodes4 := import_merge_fav idMap db incoming nodes3
  { db with nodes := nodes4 }

/-- The pure core of `FileView._remove_block` (ui_file_view.py): removing a
copy section is rejected while the view is locked, when only one section
remains, and for an out-of-range index. -/
def remove_block (lock : Bool) (docs : List RichDoc) (idx : Nat) :
    List RichDoc :=
  if lock then docs
  else if docs.length ≤ 1 then docs
  else if docs.length ≤ idx then docs
  else docs.eraseIdx idx

end NotaryQuickCopy


namespace NotaryQuickCopy

/-! ### Dictionary lemmas -/

theorem mlookup_nil {α : Type} (k : String) :
    mlookup ([] : List (String × α)) k = none := rfl

theorem mlookup_cons {α : Type} (k' : String) (v : α) (m : List (String × α))
    (k : String) :
    mlookup ((k', v) :: m) k = if k' = k then some v else mlookup m k := by
  simp only [mlookup, List.find?_cons]
  by_cases h : k' = k <;> simp [h]

theorem mem_of_mlookup {α : Type} {m : List (String × α)} {k : String} {v : α}
    (h : mlookup m k = some v) : (k, v) ∈ m := by
  induction m with
  | nil => simp [mlookup] at h
  | cons p rest ih =>
      obtain ⟨k', v'⟩ := p
      rw [mlookup_cons] at h
      by_cases hk : k' = k
      · rw [if_pos hk] at h
        cases h
        cases hk
        exact List.mem_cons_self _ _
      · rw [if_neg hk] at h
        exact List.mem_cons_of_mem _ (ih h)

theorem mlookup_eq_none_iff {α : Type} (m : List (String × α)) (k : String) :
    mlookup m k = none ↔ k ∉ dkeys m := by
  induction m with
  | nil => simp [mlookup, dkeys]
  | cons p rest ih =>
      obtain ⟨k', v'⟩ := p
      rw [mlookup_cons]
      by_cases hk : k' = k
      · subst hk
        simp [dkeys]
      · have hk2 : ¬ k = k' := fun h => hk h.symm
        simp only [if_neg hk, dkeys, List.map_cons, List.mem_cons, not_or]
        rw [ih]
        simp [hk2, dkeys]

theorem mlookup_isSome_iff_mem {α : Type} (m : List (String × α)) (k : String) :
    (mlookup m k).isSome ↔ k ∈ dkeys m := by
  constructor
  · intro h
    by_contra hmem
    rw [← mlookup_eq_none_iff] at hmem
    rw [hmem] at h
    simp at h
  · intro h
    cases hl : mlookup m k with
    | none => rw [mlookup_eq_none_iff] at hl; exact absurd h hl
    | some v => simp

theorem mlookup_dinsert_self {α : Type} (m : List (String × α)) (k : String)
    (v : α) : mlookup (dinsert m k v) k = some v := by
  induction m with
  | nil => simp [dinsert, mlookup_cons]
  | cons p rest ih =>
      obtain ⟨k', v'⟩ := p
      by_cases hk : k' = k <;> simp [dinsert, hk, mlookup_cons, ih]

theorem mlookup_dinsert_ne {α : Type} (m : List (String × α)) (k k₂ : String)
    (v : α) (h : k ≠ k₂) : mlookup (dinsert m k v) k₂ = mlookup m k₂ := by
  induction m with
  | nil => simp [dinsert, mlookup_cons, h]
  | cons p rest ih =>
      obtain ⟨k', v'⟩ := p
      by_cases hk : k' = k
      · subst hk
        simp [dinsert, mlookup_cons, h]
      · simp [dinsert, hk, mlookup_cons, ih]

theorem mlookup_dmodify_self {α : Type} (m : List (String × α)) (k : String)
    (f : α → α) : mlookup (dmodify m k f) k = (mlookup m k).map f := by
  induction m with
  | nil => simp [dmodify, mlookup]
  | cons p rest ih =>
      obtain ⟨k', v'⟩ := p
      by_cases hk : k' = k <;> simp [dmodify, hk, mlookup_cons, ih]

theorem mlookup_dmodify_ne {α : Type} (m : List (String × α)) (k k₂ : String)
    (f : α → α) (h : k ≠ k₂) : mlookup (dmodify m k f) k₂ = mlookup m k₂ := by
  induction m with
  | nil => simp [dmodify]
  | cons p rest ih =>
      obtain ⟨k', v'⟩ := p
      by_cases hk : k' = k
      · subst hk
        simp [dmodify, mlookup_cons, h]
      · simp [dmodify, hk, mlookup_cons, ih]

theorem mlookup_dremove_self {α : Type} (m : List (String × α)) (k : String) :
    mlookup (dremove m k) k = none := by
  induction m with
  | nil => rfl
  | cons p rest ih =>
      obtain ⟨k', v'⟩ := p
      by_cases hk : k' = k <;> simp [dremove, hk, mlookup_cons, ih]

theorem mlookup_dremove_ne {α : Type} (m : List (String × α)) (k k₂ : String)
    (h : k ≠ k₂) : mlookup (dremove m k) k₂ = mlookup m k₂ := by
  induction m with
  | nil => rfl
  | cons p rest ih =>
      obtain ⟨k', v'⟩ := p
      by_cases hk : k' = k
      · subst hk
        simp [dremove, mlookup_cons, h, ih]
      · simp [dremove, hk, mlookup_cons, ih]

theorem dkeys_dmodify {α : Type} (m : List (String × α)) (k : String)
    (f : α → α) : dkeys (dmodify m k f) = dkeys m := by
  induction m with
  | nil => rfl
  | cons p rest ih =>
      obtain ⟨k', v'⟩ := p
      by_cases hk : k' = k
      · simp [dmodify, hk, dkeys]
      · simp only [dmodify, if_neg hk, dkeys, List.map_cons]
        simpa [dkeys] using ih

theorem dinsert_of_not_mem {α : Type} (m : List (String × α)) (k : String)
    (v : α) (h : k ∉ dkeys m) : dinsert m k v = m ++ [(k, v)] := by
  induction m with
  | nil => rfl
  | cons p rest ih =>
      obtain ⟨k', v'⟩ := p
      simp only [dkeys, List.map_cons, List.mem_cons, not_or] at h
      have : ¬ k' = k := fun he => h.1 he.symm
      simp [dinsert, this, ih h.2]

theorem mlookup_of_mlookup_dremove {α : Type} {m : List (String × α)}
    {k k₂ : String} {v : α} (h : mlookup (dremove m k) k₂ = some v) :
    mlookup m k₂ = some v := by
  by_cases hk : k = k₂
  · subst hk
    rw [mlookup_dremove_self] at h
    cases h
  · rwa [mlookup_dremove_ne _ _ _ hk] at h

end NotaryQuickCopy

namespace NotaryQuickCopy

/-! ### Entry-membership lemmas -/

theorem mem_dinsert {α : Type} {m : List (String × α)} {k : String} {v : α}
    {p : String × α} (h : p ∈ dinsert m k v) : p ∈ m ∨ p = (k, v) := by
  induction m with
  | nil => simpa [dinsert] using h
  | cons q rest ih =>
      obtain ⟨k', v'⟩ := q
      by_cases hk : k' = k
      · simp [dinsert, hk] at h
        rcases h with h | h
        · exact Or.inr (by simp [h])
        · exact Or.inl (List.mem_cons_of_mem _ h)
      · simp [dinsert, hk] at h
        rcases h with h | h
        · exact Or.inl (by simp [h])
        · rcases ih h with h2 | h2
          · exact Or.inl (List.mem_cons_of_mem _ h2)
          · exact Or.inr h2

theorem mem_dmodify {α : Type} {m : List (String × α)} {k : String}
    {f : α → α} {p : String × α} (h : p ∈ dmodify m k f) :
    p ∈ m ∨ ∃ v0, (k, v0) ∈ m ∧ p = (k, f v0) := by
  induction m with
  | nil => simp [dmodify] at h
  | cons q rest ih =>
      obtain ⟨k', v'⟩ := q
      by_cases hk : k' = k
      · subst hk
        simp [dmodify] at h
        rcases h with h | h
        · exact Or.inr ⟨v', List.mem_cons_self _ _, by simp [h]⟩
        · exact Or.inl (List.mem_cons_of_mem _ h)
      · simp [dmodify, hk] at h
        rcases h with h | h
        · exact Or.inl (by simp [h])
        · rcases ih h with h2 | h2
          · exact Or.inl (List.mem_cons_of_mem _ h2)
          · obtain ⟨v0, hv0, hp⟩ := h2
            exact Or.inr ⟨v0, List.mem_cons_of_mem _ hv0, hp⟩

theorem mem_dremove {α : Type} {m : List (String × α)} {k : String}
    {p : String × α} (h : p ∈ dremove m k) : p ∈ m := by
  induction m with
  | nil => simp [dremove] at h
  | cons q rest ih =>
      obtain ⟨k', v'⟩ := q
      by_cases hk : k' = k
      · simp [dremove, hk] at h
        exact List.mem_cons_of_mem _ (ih h)
      · simp [dremove, hk] at h
        rcases h with h | h
        · simp [h]
        · exact List.mem_cons_of_mem _ (ih h)

theorem mem_dupdate {α : Type} {m m2 : List (String × α)}
    {p : String × α} (h : p ∈ dupdate m m2) : p ∈ m ∨ p ∈ m2 := by
  induction m2 generalizing m with
  | nil => exact Or.inl h
  | cons q rest ih =>
      rw [dupdate, List.foldl_cons] at h
      rcases ih h with h2 | h2
      · rcases mem_dinsert h2 with h3 | h3
        · exact Or.inl h3
        · exact Or.inr (by simp [h3])
      · exact Or.inr (List.mem_cons_of_mem _ h2)

end NotaryQuickCopy

namespace NotaryQuickCopy

/-! ### C7 and C6: content upgrade and the non-empty `copy_docs` invariant -/

theorem upgrade_copy_docs_ne_nil (c : RawContentDict) :
    (upgrade_legacy_content c).copy_docs ≠ [] := by
  rw [upgrade_legacy_content]
  split
  · cases hcd : c.copy_docs with
    | val l => cases l <;> simp
    | absent => simp
    | falsy => simp
  · cases hcb : c.copy_blocks with
    | val l => cases l <;> simp
    | absent => simp
    | falsy => simp

/-- Every file node of a node mapping carries content with at least one
copy document. -/
def FileDocsOK (m : List (String × Node)) : Prop :=
  ∀ p ∈ m, p.2.type = .file → ∃ fc, p.2.content = some fc ∧ fc.copy_docs ≠ []

theorem FileDocsOK_dinsert {m : List (String × Node)} {k : String} {v : Node}
    (hm : FileDocsOK m)
    (hv : v.type = .file → ∃ fc, v.content = some fc ∧ fc.copy_docs ≠ []) :
    FileDocsOK (dinsert m k v) := by
  intro p hp ht
  rcases mem_dinsert hp with h | h
  · exact hm p h ht
  · subst h
    exact hv ht

theorem FileDocsOK_dmodify {m : List (String × Node)} {k : String}
    {f : Node → Node} (hm : FileDocsOK m)
    (hf : ∀ v, (f v).type = v.type ∧ (f v).content = v.content) :
    FileDocsOK (dmodify m k f) := by
  intro p hp ht
  rcases mem_dmodify hp with h | ⟨v0, hv0, hp2⟩
  · exact hm p h ht
  · subst hp2
    simp only [(hf v0).1, (hf v0).2] at ht ⊢
    exact hm (k, v0) hv0 ht

theorem FileDocsOK_dupdate {m m2 : List (String × Node)}
    (hm : FileDocsOK m) (hm2 : FileDocsOK m2) : FileDocsOK (dupdate m m2) := by
  intro p hp ht
  rcases mem_dupdate hp with h | h
  · exact hm p h ht
  · exact hm2 p h ht

theorem FileDocsOK_parseOneRaw {acc : List (String × Node)}
    (hm : FileDocsOK acc) (p : String × RawEntry) :
    FileDocsOK (parseOneRaw acc p) := by
  obtain ⟨k, e⟩ := p
  cases e with
  | junk => exact hm
  | node d =>
      rw [parseOneRaw]
      apply FileDocsOK_dinsert hm
      intro ht
      by_cases hf : d.type.getD "folder" = "file"
      · refine ⟨upgrade_legacy_content (d.content.getD {}), ?_, upgrade_copy_docs_ne_nil _⟩
        simp [hf]
      · exfalso
        by_cases h1 : d.type.getD "folder" = "folder" <;>
          by_cases h2 : d.type.getD "folder" = "shortcut" <;>
            simp [h1, h2, hf] at ht
  
theorem FileDocsOK_parseRawNodes (nodesRaw : List (String × RawEntry)) :
    FileDocsOK (parseRawNodes nodesRaw) := by
  rw [parseRawNodes]
  generalize hacc : ([] : List (String × Node)) = acc
  have hOK : FileDocsOK acc := by
    subst hacc
    intro p hp
    simp at hp
  clear hacc
  induction nodesRaw generalizing acc with
  | nil => exact hOK
  | cons q rest ih =>
      rw [List.foldl_cons]
      exact ih _ (FileDocsOK_parseOneRaw hOK q)

theorem FileDocsOK_blank (favId qcId : String) :
    FileDocsOK (blank_database favId qcId).nodes := by
  intro p hp ht
  exfalso
  rw [blank_database] at hp
  rcases mem_dinsert hp with h | h
  · rcases mem_dinsert h with h2 | h2
    · simp at h2
    · subst h2
      simp at ht
  · subst h
    simp at ht

theorem FileDocsOK_ensure {st : Database × Nat} {gen : Nat → String}
    {file_id : String} (hm : FileDocsOK st.1.nodes) :
    FileDocsOK (ensure_favorite_shortcut gen st file_id).1.nodes := by
  rw [ensure_favorite_shortcut]
  cases hfav : mlookup st.1.nodes st.1.favorites_root_id with
  | none => exact hm
  | some fav_root =>
      simp only []
      split
      · split
        · exact hm
        · cases htgt : mlookup st.1.nodes file_id with
          | none => exact hm
          | some target =>
              simp only []
              split
              · split
                · exact FileDocsOK_dinsert hm (by simp)
                · apply FileDocsOK_dmodify (FileDocsOK_dinsert hm (by simp))
                  intro v
                  exact ⟨rfl, rfl⟩
              · exact hm
      · exact hm

theorem FileDocsOK_pinned_fold (gen : Nat → String)
    (raw : List (String × RawEntry)) (st : Database × Nat)
    (hm : FileDocsOK st.1.nodes) :
    FileDocsOK ((raw.foldl (pinnedStep gen) st).1).nodes := by
  induction raw generalizing st with
  | nil => exact hm
  | cons q rest ih =>
      rw [List.foldl_cons]
      apply ih
      rw [pinnedStep]
      obtain ⟨k, e⟩ := q
      cases e with
      | junk => exact hm
      | node r =>
          simp only []
          split
          · exact FileDocsOK_ensure hm
          · exact hm

theorem db_from_dict_files_ok (gen : Nat → String) (data : RawDB) :
    FileDocsOK (db_from_dict gen data).nodes := by
  rw [db_from_dict]
  have hparse := FileDocsOK_parseRawNodes data.nodes
  split
  · split
    · apply FileDocsOK_dmodify
      · exact FileDocsOK_dupdate (FileDocsOK_blank _ _) hparse
      · intro v
        exact ⟨rfl, rfl⟩
    · exact FileDocsOK_dupdate (FileDocsOK_blank _ _) hparse
  · split
    · apply FileDocsOK_pinned_fold
      exact FileDocsOK_dinsert hparse (by simp)
    · exact FileDocsOK_pinned_fold gen _ _ hparse

end NotaryQuickCopy

namespace NotaryQuickCopy

/-- C6: for every file node, `copy_docs` is never empty — deserialization
(`db_from_dict`, via `_upgrade_legacy_content`) gives every file node at
least one copy document, whatever the stored `copy_docs`/`copy_blocks`
were, and `FileView._remove_block` rejects removing the last copy section:
on a one-element list it returns the list unchanged, so the count stays 1. -/
theorem C6_copy_docs_never_empty :
    (∀ (gen : Nat → String) (data : RawDB) (k : String) (n : Node),
        mlookup (db_from_dict gen data).nodes k = some n → n.type = .file →
        ∃ fc, n.content = some fc ∧ fc.copy_docs ≠ []) ∧
    (∀ (lock : Bool) (docs : List RichDoc) (idx : Nat), docs.length = 1 →
        remove_block lock docs idx = docs ∧
        (remove_block lock docs idx).length = 1) := by
  constructor
  · intro gen data k n h htype
    exact db_from_dict_files_ok gen data (k, n) (mem_of_mlookup h) htype
  · intro lock docs idx h
    have : remove_block lock docs idx = docs := by
      rw [remove_block]
      by_cases hl : lock <;> simp [hl, h]
    exact ⟨this, by rw [this, h]⟩

/-- The uuid supply used by the concrete witnesses. -/
def genW : Nat → String := fun n => "uuid-" ++ toString n

/-- A raw legacy document with a single file entry, used as witness data. -/
def rawW : RawDB :=
  { nodes := [("f1", .node { id := some "f1", type := some "file" })] }

/-- The node `db_from_dict` parses out of `rawW`'s single entry. -/
def nodeW : Node :=
  { id := "f1", type := .file, name := "Untitled", children := []
    content := some { read_doc := blank_rich_doc, copy_docs := [blank_rich_doc] }
    target_id := none }

theorem C6_copy_docs_never_empty_witness :
    (∃ fc, nodeW.content = some fc ∧ fc.copy_docs ≠ []) ∧
    (remove_block false [blank_rich_doc] 0 = [blank_rich_doc] ∧
      (remove_block false [blank_rich_doc] 0).length = 1) :=
  ⟨C6_copy_docs_never_empty.1 genW rawW "f1" nodeW (by decide) rfl,
   C6_copy_docs_never_empty.2 false [blank_rich_doc] 0 rfl⟩

/-- C7: a legacy file-content value `{read_text: s, copy_blocks: [s1..sn]}`
with `n ≥ 1` deserializes to a `FileContent` whose `read_doc` has text `s`
and no tags and whose `copy_docs` are exactly the `si` in order, each with
no tags. -/
theorem C7_legacy_content_round_trip (s : String) (l : List String)
    (h : l ≠ []) :
    upgrade_legacy_content { read_text := .val s, copy_blocks := .val l } =
      { read_doc := { text := s, tags := [] }
        copy_docs := l.map (fun b => { text := b, tags := [] }) } := by
  rw [upgrade_legacy_content]
  cases l with
  | nil => exact absurd rfl h
  | cons b bs => simp

theorem C7_legacy_content_round_trip_witness :
    (["a", "b"] : List String) ≠ [] ∧
    upgrade_legacy_content
        { read_text := .val "hello", copy_blocks := .val ["a", "b"] } =
      { read_doc := { text := "hello", tags := [] }
        copy_docs := [{ text := "a", tags := [] }, { text := "b", tags := [] }] } :=
  ⟨by decide, C7_legacy_content_round_trip "hello" ["a", "b"] (by decide)⟩

/-! ### C4: `bundle_io.export_bundle` is stale -/

/-- A store whose quickcopy root contains a folder `F` holding one file
with (default) content. -/
def dbC4file : Database :=
  { quickcopy_root_id := "qc", favorites_root_id := "fav"
    nodes :=
      [("fav", { id := "fav", type := .folder, name := "Favorites" }),
       ("qc", { id := "qc", type := .folder, name := "QuickCopy", children := ["F"] }),
       ("F", { id := "F", type := .folder, name := "F", children := ["f"] }),
       ("f", { id := "f", type := .file, name := "Notes"
               content := some { read_doc := blank_rich_doc
                                 copy_docs := [blank_rich_doc] } })] }

/-- A store whose folder `F` holds one shortcut targeting `"t"`. -/
def dbC4sc : Database :=
  { quickcopy_root_id := "qc", favorites_root_id := "fav"
    nodes :=
      [("fav", { id := "fav", type := .folder, name := "Favorites" }),
       ("qc", { id := "qc", type := .folder, name := "QuickCopy", children := ["F"] }),
       ("F", { id := "F", type := .folder, name := "F", children := ["s"] }),
       ("s", { id := "s", type := .shortcut, name := "S", target_id := some "t" })] }

/-- C4 (code bug): `export_bundle` evaluates `n.content.read_rich`, an
attribute `FileContent` does not have, so exporting any subtree containing
a file with content raises `AttributeError`; and for a shortcut (whose
`content` is `None`, dodging the crash) the emitted raw node drops
`target_id` entirely — the original shortcut targeted `"t"`, the exported
node records no target — contradicting the claim that the subtree is
exported with shortcut `target_id` unchanged. -/
theorem C4_export_bundle_code_bug :
    export_bundle dbC4file "F" =
      Except.error "AttributeError: FileContent has no attribute read_rich" ∧
    ∃ b, export_bundle dbC4sc "F" = Except.ok b ∧
      (∃ e, mlookup b.nodes "s" = some e ∧ e.target_id = none) ∧
      (∃ n, mlookup dbC4sc.nodes "s" = some n ∧ n.target_id = some "t") := by
  refine ⟨rfl, ?_⟩
  refine ⟨{ bundle_root_id := "F"
            nodes := [("F", { id := "F", type := "folder", name := "F"
                              children := ["s"], content := none }),
                      ("s", { id := "s", type := "shortcut", name := "S"
                              children := []
                              content := some { read_rich := blank_rich_doc
                                                copy_blocks := [blank_rich_doc] } })] },
          rfl,
          ⟨{ id := "s", type := "shortcut", name := "S", children := []
             content := some { read_rich := blank_rich_doc
                               copy_blocks := [blank_rich_doc] } },
           by decide, rfl⟩,
          ⟨{ id := "s", type := .shortcut, name := "S", target_id := some "t" },
           by decide, rfl⟩⟩

end NotaryQuickCopy

namespace NotaryQuickCopy

/-! ### C1: serialization round trip -/

/-- Per-node well-formedness needed for an exact round trip: keyed by its
own id, files carry content with non-empty `copy_docs`, non-files carry no
content. -/
def NodesWF (m : List (String × Node)) : Prop :=
  ∀ p ∈ m, p.2.id = p.1 ∧
    (p.2.type = .file → ∃ fc, p.2.content = some fc ∧ fc.copy_docs ≠ []) ∧
    (p.2.type ≠ .file → p.2.content = none)

theorem node_raw_round_trip (acc : List (String × Node)) (k : String)
    (n : Node) (hid : n.id = k)
    (hfile : n.type = .file → ∃ fc, n.content = some fc ∧ fc.copy_docs ≠ [])
    (hnon : n.type ≠ .file → n.content = none) :
    parseOneRaw acc (k, node_to_raw n) = dinsert acc k n := by
  obtain ⟨id, ty, name, children, content, target⟩ := n
  simp only at hid hfile hnon
  subst hid
  cases ty with
  | folder =>
      have hc : content = none := hnon (by simp)
      subst hc
      rfl
  | shortcut =>
      have hc : content = none := hnon (by simp)
      subst hc
      rfl
  | file =>
      obtain ⟨fc, hc, hne⟩ := hfile rfl
      subst hc
      obtain ⟨rd, cds⟩ := fc
      cases cds with
      | nil => exact absurd rfl hne
      | cons d ds => rfl

theorem parse_map_to_dict (m : List (String × Node)) :
    ∀ acc, NodesWF m → (dkeys m).Nodup →
      (∀ k ∈ dkeys m, k ∉ dkeys acc) →
      List.foldl parseOneRaw acc (m.map (fun p => (p.1, node_to_raw p.2))) =
        acc ++ m := by
  induction m with
  | nil => intro acc _ _ _; simp
  | cons q rest ih =>
      intro acc hwf hnd hdisj
      obtain ⟨k, n⟩ := q
      rw [List.map_cons, List.foldl_cons]
      have hq := hwf (k, n) (List.mem_cons_self _ _)
      rw [node_raw_round_trip acc k n hq.1 hq.2.1 hq.2.2]
      rw [dinsert_of_not_mem acc k n (hdisj k (by simp [dkeys]))]
      simp only [dkeys, List.map_cons, List.nodup_cons] at hnd
      have hnd' : (dkeys rest).Nodup := hnd.2
      have hk : k ∉ dkeys rest := hnd.1
      rw [ih (acc ++ [(k, n)])
          (fun p hp => hwf p (List.mem_cons_of_mem _ hp)) hnd'
          (fun k2 hk2 => by
            simp only [dkeys, List.map_append] at *
            simp only [List.mem_append]
            rintro (h | h)
            · exact hdisj k2 (by simp [dkeys, hk2]) h
            · simp at h
              subst h
              exact hk hk2)]
      simp

theorem pinned_fold_noop (gen : Nat → String)
    (raw : List (String × RawEntry)) (st : Database × Nat)
    (h : ∀ p ∈ raw, ∀ r, p.2 = .node r → r.pinned ≠ some true) :
    raw.foldl (pinnedStep gen) st = st := by
  induction raw generalizing st with
  | nil => rfl
  | cons q rest ih =>
      rw [List.foldl_cons]
      have hstep : pinnedStep gen st q = st := by
        obtain ⟨k, e⟩ := q
        cases e with
        | junk => rfl
        | node r =>
            have := h (k, .node r) (List.mem_cons_self _ _) r rfl
            simp [pinnedStep, this]
      rw [hstep]
      exact ih _ (fun p hp => h p (List.mem_cons_of_mem _ hp))

/-- C1 (amended): `db_from_dict (db_to_dict db) = db` holds for databases
that are well formed in the fuller sense: both root ids non-empty and
present in the mapping (as folder nodes), every node keyed by its own id,
file nodes carrying content with non-empty `copy_docs`, non-file nodes
carrying no content, and no duplicate keys (automatic for a Python dict). -/
theorem C1_round_trip_amended (db : Database) (gen : Nat → String)
    (hqc : db.quickcopy_root_id ≠ "") (hfav : db.favorites_root_id ≠ "")
    (hqcn : ∃ n, mlookup db.nodes db.quickcopy_root_id = some n ∧
      n.type = .folder)
    (hfavn : ∃ n, mlookup db.nodes db.favorites_root_id = some n ∧
      n.type = .folder)
    (hwf : NodesWF db.nodes) (hnd : (dkeys db.nodes).Nodup) :
    db_from_dict gen (db_to_dict db) = db := by
  obtain ⟨q, f, ns⟩ := db
  obtain ⟨nqc, hqcl, -⟩ := hqcn
  obtain ⟨nfav, hfavl, -⟩ := hfavn
  simp only at hqc hfav hqcl hfavl hwf hnd
  have hparse : parseRawNodes (ns.map (fun p => (p.1, node_to_raw p.2))) = ns := by
    rw [parseRawNodes]
    simpa using parse_map_to_dict ns [] hwf hnd (by simp [dkeys])
  rw [db_from_dict]
  simp only [db_to_dict, hparse]
  rw [if_neg, if_neg]
  · have hside : ∀ p ∈ ns.map (fun p => (p.1, node_to_raw p.2)), ∀ r,
        p.2 = .node r → r.pinned ≠ some true := by
      intro p hp r hpr
      simp only [List.mem_map] at hp
      obtain ⟨p0, -, hp0⟩ := hp
      rw [← hp0] at hpr
      simp only [node_to_raw] at hpr
      cases hpr
      simp
    rw [pinned_fold_noop gen _ _ hside]
    rfl
  · simp only [truthyStr, Option.getD_some]
    simp [hfav, hfavl]
  · simp only [truthyStr, Option.getD_some]
    simp [hqc, hqcl]

/-- A database satisfying the claim's stated well-formedness (roots present
as folders, files carry content) that is not keyed by node ids. -/
def dbBadKey : Database :=
  { quickcopy_root_id := "qc", favorites_root_id := "fav"
    nodes :=
      [("fav", { id := "fav", type := .folder, name := "Favorites" }),
       ("qc", { id := "qc", type := .folder, name := "QuickCopy", children := ["x"] }),
       ("x", { id := "y", type := .folder, name := "Oops" })] }

/-- C1 (counterexample): `dbBadKey` is well formed exactly as the claim
demands — both roots present as folder nodes and every file node (there is
none) carrying content — yet `db_from_dict (db_to_dict db)` differs from
`db`: deserialization re-keys the third node by its embedded id `"y"`,
while `db` keys it as `"x"`. -/
theorem C1_round_trip_counterexample :
    (∃ n, mlookup dbBadKey.nodes dbBadKey.quickcopy_root_id = some n ∧
      n.type = .folder) ∧
    (∃ n, mlookup dbBadKey.nodes dbBadKey.favorites_root_id = some n ∧
      n.type = .folder) ∧
    (∀ p ∈ dbBadKey.nodes, p.2.type = .file → p.2.content ≠ none) ∧
    db_from_dict genW (db_to_dict dbBadKey) ≠ dbBadKey := by
  refine ⟨⟨{ id := "qc", type := .folder, name := "QuickCopy", children := ["x"] },
           by decide, rfl⟩,
          ⟨{ id := "fav", type := .folder, name := "Favorites" }, by decide, rfl⟩,
          by decide, by decide⟩

theorem C1_round_trip_amended_witness :
    db_from_dict genW (db_to_dict dbC4sc) = dbC4sc :=
  C1_round_trip_amended dbC4sc genW (by decide) (by decide)
    ⟨{ id := "qc", type := .folder, name := "QuickCopy", children := ["F"] },
      by decide, rfl⟩
    ⟨{ id := "fav", type := .folder, name := "Favorites" }, by decide, rfl⟩
    (by
      intro p hp
      simp only [dbC4sc, List.mem_cons, List.not_mem_nil, or_false] at hp
      rcases hp with h | h | h | h <;> subst h <;> exact ⟨rfl, by simp, by simp⟩)
    (by decide)

end NotaryQuickCopy


namespace NotaryQuickCopy

/-! ### C3: the pinned-flag migration -/

/-- A file node is stored under `f`. -/
def FileAt (m : List (String × Node)) (f : String) : Prop :=
  ∃ n, mlookup m f = some n ∧ n.type = .file

/-- The existing-shortcut scan shared by `is_favorited`,
`_ensure_favorite_shortcut` and `_add_shortcut_for_target`. -/
theorem is_favorited_elim {db : Database} {fid : String}
    (h : is_favorited db fid = true) :
    ∃ fav_root, mlookup db.nodes db.favorites_root_id = some fav_root ∧
      fav_root.type = .folder ∧
      fav_root.children.any (favScanPred db.nodes fid) = true := by
  rw [is_favorited] at h
  split at h
  · cases h
  · rename_i fav_root hfav
    split at h
    · exact ⟨fav_root, hfav, by assumption, h⟩
    · cases h

theorem is_favorited_intro {db : Database} {fid : String} {fav_root : Node}
    (hfav : mlookup db.nodes db.favorites_root_id = some fav_root)
    (hfolder : fav_root.type = .folder)
    (hany : fav_root.children.any (favScanPred db.nodes fid) = true) :
    is_favorited db fid = true := by
  rw [is_favorited]
  split
  · rename_i hnone
    rw [hnone] at hfav
    cases hfav
  · rename_i fav2 hfav2
    rw [hfav2] at hfav
    cases hfav
    rw [if_pos hfolder]
    exact hany

theorem ensure_skip_if_exists (gen : Nat → String) (st : Database × Nat)
    (fid : String) (h : is_favorited st.1 fid = true) :
    ensure_favorite_shortcut gen st fid = st := by
  obtain ⟨fav_root, hfav, hfolder, hany⟩ := is_favorited_elim h
  rw [ensure_favorite_shortcut]
  split
  · rename_i hnone
    rw [hnone] at hfav
  · rename_i fav2 hfav2
    rw [hfav2] at hfav
    cases hfav
    rw [if_pos hfolder, if_pos hany]

end NotaryQuickCopy

namespace NotaryQuickCopy

/-- The node mapping and counter produced by the creating branch of
`_ensure_favorite_shortcut` (and of `_add_shortcut_for_target`, which
builds the same shortcut): insert the fresh shortcut, then append it to
the favorites root's children. -/
def shortcut_created (st : Database × Nat) (fid scId : String)
    (target : Node) : Database × Nat :=
  ({ st.1 with
      nodes :=
        dmodify
          (dinsert st.1.nodes scId
            { id := scId, type := .shortcut, name := target.name
              target_id := some fid })
          st.1.favorites_root_id
          (fun f => { f with children := f.children ++ [scId] }) },
    st.2 + 1)

/-- Under freshness of the generated id, `_ensure_favorite_shortcut` either
returns its input unchanged or creates the shortcut; in the creating branch
the favorites root is a folder, the target is a file, and no favorites
shortcut to the target existed. -/
theorem ensure_create_or_skip (gen : Nat → String) (st : Database × Nat)
    (fid : String)
    (hfresh : mlookup st.1.nodes (gen st.2) = none) :
    (ensure_favorite_shortcut gen st fid = st ∧
      (mlookup st.1.nodes st.1.favorites_root_id = none ∨
       (∃ fav, mlookup st.1.nodes st.1.favorites_root_id = some fav ∧
         fav.type ≠ .folder) ∨
       is_favorited st.1 fid = true ∨
       mlookup st.1.nodes fid = none ∨
       (∃ t, mlookup st.1.nodes fid = some t ∧ t.type ≠ .file))) ∨
    ∃ fav_root target,
      mlookup st.1.nodes st.1.favorites_root_id = some fav_root ∧
      fav_root.type = .folder ∧
      mlookup st.1.nodes fid = some target ∧ target.type = .file ∧
      is_favorited st.1 fid = false ∧
      ensure_favorite_shortcut gen st fid =
        shortcut_created st fid (gen st.2) target := by
  rw [ensure_favorite_shortcut]
  split
  · rename_i hnone
    exact Or.inl ⟨rfl, Or.inl hnone⟩
  · rename_i fav_root heq
    split
    · rename_i hfolder
      split
      · rename_i hsc
        exact Or.inl ⟨rfl, Or.inr (Or.inr (Or.inl
          (is_favorited_intro heq hfolder hsc)))⟩
      · rename_i hnsc
        split
        · rename_i target heq2
          split
          · rename_i hfile
            refine Or.inr ⟨fav_root, target, heq, hfolder, heq2, hfile, ?_, ?_⟩
            · rw [is_favorited]
              split
              · rename_i hnone
                rw [hnone] at heq
              · rename_i fav2 heq3
                rw [heq3] at heq
                cases heq
                rw [if_pos hfolder]
                simpa using hnsc
            · have hne : gen st.2 ≠ st.1.favorites_root_id := by
                intro hcontra
                rw [hcontra, heq] at hfresh
                cases hfresh
              simp only [shortcut_created]
              simp [hne]
          · rename_i hnf
            exact Or.inl ⟨rfl, Or.inr (Or.inr (Or.inr (Or.inr
              ⟨target, heq2, hnf⟩)))⟩
        · rename_i heq2
          exact Or.inl ⟨rfl, Or.inr (Or.inr (Or.inr (Or.inl heq2)))⟩
    · rename_i hnfolder
      exact Or.inl ⟨rfl, Or.inr (Or.inl ⟨fav_root, heq, hnfolder⟩)⟩

end NotaryQuickCopy

namespace NotaryQuickCopy

theorem favScanPred_iff (m : List (String × Node)) (fid cid : String) :
    favScanPred m fid cid = true ↔
      ∃ n, mlookup m cid = some n ∧ n.type = .shortcut ∧
        n.target_id = some fid := by
  rw [favScanPred]
  split
  · rename_i n hl
    simp [hl]
  · rename_i hl
    simp [hl]

theorem shortcut_created_favroot (st : Database × Nat) (fid scId : String)
    (target : Node) :
    (shortcut_created st fid scId target).1.favorites_root_id =
      st.1.favorites_root_id := rfl

theorem shortcut_created_lookup_other (st : Database × Nat)
    (fid scId : String) (target : Node) (k : String) (hk1 : k ≠ scId)
    (hk2 : k ≠ st.1.favorites_root_id) :
    mlookup (shortcut_created st fid scId target).1.nodes k =
      mlookup st.1.nodes k := by
  simp only [shortcut_created]
  rw [mlookup_dmodify_ne _ _ _ _ (Ne.symm hk2),
    mlookup_dinsert_ne _ _ _ _ (Ne.symm hk1)]

theorem shortcut_created_lookup_sc (st : Database × Nat)
    (fid scId : String) (target : Node)
    (hne : scId ≠ st.1.favorites_root_id) :
    mlookup (shortcut_created st fid scId target).1.nodes scId =
      some { id := scId, type := .shortcut, name := target.name
             target_id := some fid } := by
  simp only [shortcut_created]
  rw [mlookup_dmodify_ne _ _ _ _ (Ne.symm hne), mlookup_dinsert_self]

theorem shortcut_created_lookup_fav (st : Database × Nat)
    (fid scId : String) (target : Node)
    (hne : scId ≠ st.1.favorites_root_id) :
    mlookup (shortcut_created st fid scId target).1.nodes
        st.1.favorites_root_id =
      (mlookup st.1.nodes st.1.favorites_root_id).map
        (fun f => { f with children := f.children ++ [scId] }) := by
  simp only [shortcut_created]
  rw [mlookup_dmodify_self, mlookup_dinsert_ne _ _ _ _ hne]

theorem shortcut_created_fresh (st : Database × Nat) (fid scId : String)
    (target : Node) (x : String) (hx : mlookup st.1.nodes x = none)
    (hxs : x ≠ scId) :
    mlookup (shortcut_created st fid scId target).1.nodes x = none := by
  by_cases hk : x = st.1.favorites_root_id
  · subst hk
    rw [shortcut_created_lookup_fav _ _ _ _ (fun h => hxs h.symm), hx]
    rfl
  · rw [shortcut_created_lookup_other _ _ _ _ _ hxs hk]
    exact hx

theorem shortcut_created_FileAt (st : Database × Nat) (fid scId : String)
    (target : Node) (f : String)
    (hfresh : mlookup st.1.nodes scId = none)
    (h : FileAt st.1.nodes f) :
    FileAt (shortcut_created st fid scId target).1.nodes f := by
  obtain ⟨n, hn, hnt⟩ := h
  have hfs : f ≠ scId := by
    intro hc
    rw [hc, hfresh] at hn
    cases hn
  by_cases hk : f = st.1.favorites_root_id
  · subst hk
    refine ⟨{ n with children := n.children ++ [scId] }, ?_, hnt⟩
    rw [shortcut_created_lookup_fav _ _ _ _ (fun h => hfs h.symm), hn]
    rfl
  · exact ⟨n, by rw [shortcut_created_lookup_other _ _ _ _ _ hfs hk]; exact hn, hnt⟩

theorem shortcut_created_fav_folder (st : Database × Nat)
    (fid scId : String) (target : Node)
    (hfresh : mlookup st.1.nodes scId = none)
    (h : ∃ fav, mlookup st.1.nodes st.1.favorites_root_id = some fav ∧
      fav.type = .folder) :
    ∃ fav, mlookup (shortcut_created st fid scId target).1.nodes
        (shortcut_created st fid scId target).1.favorites_root_id =
          some fav ∧ fav.type = .folder := by
  obtain ⟨fav, hfav, hft⟩ := h
  have hne : scId ≠ st.1.favorites_root_id := by
    intro hc
    rw [hc, hfav] at hfresh
    cases hfresh
  refine ⟨{ fav with children := fav.children ++ [scId] }, ?_, hft⟩
  rw [shortcut_created_favroot, shortcut_created_lookup_fav _ _ _ _ hne, hfav]
  rfl

theorem shortcut_created_is_favorited_mono (st : Database × Nat)
    (fid' fid scId : String) (target : Node)
    (hfresh : mlookup st.1.nodes scId = none)
    (h : is_favorited st.1 fid' = true) :
    is_favorited (shortcut_created st fid scId target).1 fid' = true := by
  obtain ⟨fav_root, hfav, hfolder, hany⟩ := is_favorited_elim h
  have hne : scId ≠ st.1.favorites_root_id := by
    intro hc
    rw [hc, hfav] at hfresh
    cases hfresh
  apply @is_favorited_intro _ _
    ({ fav_root with children := fav_root.children ++ [scId] })
  · rw [shortcut_created_favroot, shortcut_created_lookup_fav _ _ _ _ hne,
      hfav]
    rfl
  · exact hfolder
  · rw [List.any_eq_true] at hany ⊢
    obtain ⟨cid, hcmem, hcp⟩ := hany
    rw [favScanPred_iff] at hcp
    obtain ⟨n, hn, hns, hnt⟩ := hcp
    refine ⟨cid, by simp [hcmem], ?_⟩
    rw [favScanPred_iff]
    have hcs : cid ≠ scId := by
      intro hc
      rw [hc, hfresh] at hn
      cases hn
    have hcf : cid ≠ st.1.favorites_root_id := by
      intro hc
      rw [hc, hfav] at hn
      cases hn
      rw [hns] at hfolder
      cases hfolder
    exact ⟨n, by rw [shortcut_created_lookup_other _ _ _ _ _ hcs hcf]; exact hn,
      hns, hnt⟩

theorem shortcut_created_is_favorited (st : Database × Nat)
    (fid scId : String) (target : Node)
    (hfresh : mlookup st.1.nodes scId = none)
    (hfav : ∃ fav, mlookup st.1.nodes st.1.favorites_root_id = some fav ∧
      fav.type = .folder) :
    is_favorited (shortcut_created st fid scId target).1 fid = true := by
  obtain ⟨fav, hfavl, hft⟩ := hfav
  have hne : scId ≠ st.1.favorites_root_id := by
    intro hc
    rw [hc, hfavl] at hfresh
    cases hfresh
  apply @is_favorited_intro _ _
    ({ fav with children := fav.children ++ [scId] })
  · rw [shortcut_created_favroot, shortcut_created_lookup_fav _ _ _ _ hne,
      hfavl]
    rfl
  · exact hft
  · rw [List.any_eq_true]
    refine ⟨scId, by simp, ?_⟩
    rw [favScanPred_iff]
    exact ⟨_, shortcut_created_lookup_sc _ _ _ _ hne, rfl, rfl⟩

end NotaryQuickCopy

namespace NotaryQuickCopy

theorem ensure_establish (gen : Nat → String) (st : Database × Nat)
    (fid : String)
    (hfav : ∃ fav, mlookup st.1.nodes st.1.favorites_root_id = some fav ∧
      fav.type = .folder)
    (hfile : FileAt st.1.nodes fid)
    (hfresh : mlookup st.1.nodes (gen st.2) = none) :
    is_favorited (ensure_favorite_shortcut gen st fid).1 fid = true := by
  rcases ensure_create_or_skip gen st fid hfresh with ⟨heq, hreason⟩ |
    ⟨fr, tg, -, -, -, -, -, heq⟩
  · rw [heq]
    obtain ⟨fav, hfavl, hft⟩ := hfav
    obtain ⟨tn, htn, htt⟩ := hfile
    rcases hreason with h | ⟨fav2, hl2, hnf⟩ | h | h | ⟨t2, hl2, hnf⟩
    · rw [h] at hfavl
      cases hfavl
    · rw [hl2] at hfavl
      cases hfavl
      exact absurd hft hnf
    · exact h
    · rw [h] at htn
      cases htn
    · rw [hl2] at htn
      cases htn
      exact absurd htt hnf
  · rw [heq]
    exact shortcut_created_is_favorited st fid (gen st.2) _ hfresh hfav

/-- One step of the pinned-migration fold: either nothing changes, or a
fresh shortcut is created. -/
theorem pinnedStep_cases (gen : Nat → String) (st : Database × Nat)
    (p : String × RawEntry)
    (hfresh : mlookup st.1.nodes (gen st.2) = none) :
    pinnedStep gen st p = st ∨
    ∃ fid target, pinnedStep gen st p =
      shortcut_created st fid (gen st.2) target := by
  rw [pinnedStep]
  obtain ⟨k, e⟩ := p
  cases e with
  | junk => exact Or.inl rfl
  | node r =>
      simp only []
      split
      · rcases ensure_create_or_skip gen st (r.id.getD k) hfresh with
          ⟨heq, -⟩ | ⟨fr, tg, -, -, -, -, -, heq⟩
        · exact Or.inl heq
        · exact Or.inr ⟨r.id.getD k, tg, heq⟩
      · exact Or.inl rfl

/-- The pinned-migration fold preserves existing favorites shortcuts, and
establishes one for every pinned entry whose id resolves to a file node —
provided the favorites root is a folder and the id supply is injective and
fresh on the indices the fold may consume. -/
theorem pinned_fold_favorites (gen : Nat → String) (N : Nat)
    (hginj : ∀ i, i < N → ∀ j, j < N → gen i = gen j → i = j) :
    ∀ (rest : List (String × RawEntry)) (st : Database × Nat),
      st.2 + rest.length ≤ N →
      (∀ i, st.2 ≤ i → i < N → mlookup st.1.nodes (gen i) = none) →
      (∃ fav, mlookup st.1.nodes st.1.favorites_root_id = some fav ∧
        fav.type = .folder) →
      (∀ fid, is_favorited st.1 fid = true →
        is_favorited (rest.foldl (pinnedStep gen) st).1 fid = true) ∧
      (∀ nid r, (nid, RawEntry.node r) ∈ rest → r.pinned = some true →
        FileAt st.1.nodes (r.id.getD nid) →
        is_favorited (rest.foldl (pinnedStep gen) st).1 (r.id.getD nid) = true) := by
  intro rest
  induction rest with
  | nil =>
      intro st _ _ _
      refine ⟨fun fid h => h, ?_⟩
      intro nid r hmem
      simp at hmem
  | cons q rest ih =>
      intro st hcount hfresh hfav
      have hlen : st.2 < N := by
        have := hcount
        simp [List.length_cons] at this
        omega
      have hfresh0 : mlookup st.1.nodes (gen st.2) = none :=
        hfresh st.2 (Nat.le_refl _) hlen
      -- facts about the step
      have hstepcases := pinnedStep_cases gen st q hfresh0
      set st' := pinnedStep gen st q with hst'
      have hcount' : st'.2 + rest.length ≤ N := by
        rcases hstepcases with h | ⟨fid, tg, h⟩
        · rw [h]
          simp [List.length_cons] at hcount
          omega
        · rw [h]
          simp only [shortcut_created]
          simp [List.length_cons] at hcount
          omega
      have hfresh' : ∀ i, st'.2 ≤ i → i < N →
          mlookup st'.1.nodes (gen i) = none := by
        intro i hi hiN
        rcases hstepcases with h | ⟨fid, tg, h⟩
        · rw [h]
          rw [h] at hi
          exact hfresh i hi hiN
        · rw [h]
          rw [h] at hi
          simp only [shortcut_created] at hi
          apply shortcut_created_fresh
          · exact hfresh i (by omega) hiN
          · intro hc
            have := hginj i hiN st.2 hlen hc
            omega
      have hfav' : ∃ fav, mlookup st'.1.nodes st'.1.favorites_root_id =
          some fav ∧ fav.type = .folder := by
        rcases hstepcases with h | ⟨fid, tg, h⟩
        · rw [h]
          exact hfav
        · rw [h]
          exact shortcut_created_fav_folder st fid _ tg hfresh0 hfav
      have hmono : ∀ fid, is_favorited st.1 fid = true →
          is_favorited st'.1 fid = true := by
        intro fid h
        rcases hstepcases with he | ⟨fid2, tg, he⟩
        · rw [he]
          exact h
        · rw [he]
          exact shortcut_created_is_favorited_mono st fid fid2 _ tg hfresh0 h
      have hfileat : ∀ f, FileAt st.1.nodes f → FileAt st'.1.nodes f := by
        intro f h
        rcases hstepcases with he | ⟨fid2, tg, he⟩
        · rw [he]
          exact h
        · rw [he]
          exact shortcut_created_FileAt st fid2 _ tg f hfresh0 h
      obtain ⟨ihmono, ihest⟩ := ih st' hcount' hfresh' hfav'
      rw [List.foldl_cons, ← hst']
      constructor
      · intro fid h
        exact ihmono fid (hmono fid h)
      · intro nid r hmem hpin hfile
        rcases List.mem_cons.mp hmem with hq | hrest
        · -- our entry is the head: the step itself ensures the shortcut
          have : is_favorited st'.1 (r.id.getD nid) = true := by
            rw [hst', pinnedStep, ← hq]
            simp only [hpin, if_pos]
            exact ensure_establish gen st (r.id.getD nid) hfav hfile hfresh0
          exact ihmono _ this
        · exact ihest nid r hrest hpin (hfileat _ hfile)

end NotaryQuickCopy

namespace NotaryQuickCopy

/-- C3 (amended): the pinned-flag migration runs only on the new-format
path — when the document has a valid `quickcopy_root_id` — and there, for
every raw node entry carrying `pinned: true` whose id resolves to a file
node, a shortcut targeting it is ensured under the (valid, folder)
Favorites root; creation is skipped when a shortcut with that target
already exists (`_ensure_favorite_shortcut` returns its input unchanged).
The freshness hypotheses state that the generated uuids are injective and
unused, one potential id per raw entry. -/
theorem C3_pinned_migration_amended :
    (∀ (gen : Nat → String) (st : Database × Nat) (fid : String),
        is_favorited st.1 fid = true →
        ensure_favorite_shortcut gen st fid = st) ∧
    (∀ (gen : Nat → String) (data : RawDB) (nid : String) (r : RawNode),
        truthyStr data.quickcopy_root_id = true →
        (mlookup (parseRawNodes data.nodes)
          (data.quickcopy_root_id.getD "")).isSome →
        truthyStr data.favorites_root_id = true →
        (∃ fav, mlookup (parseRawNodes data.nodes)
            (data.favorites_root_id.getD "") = some fav ∧
          fav.type = .folder) →
        (∀ i, i < data.nodes.length → ∀ j, j < data.nodes.length →
          gen i = gen j → i = j) →
        (∀ i, i < data.nodes.length →
          mlookup (parseRawNodes data.nodes) (gen i) = none) →
        (nid, RawEntry.node r) ∈ data.nodes →
        r.pinned = some true →
        FileAt (parseRawNodes data.nodes) (r.id.getD nid) →
        is_favorited (db_from_dict gen data) (r.id.getD nid) = true) := by
  refine ⟨ensure_skip_if_exists, ?_⟩
  intro gen data nid r hqct hqcp hfavt hfavp hginj hfresh hmem hpin hfile
  rw [db_from_dict]
  rw [if_neg, if_neg]
  · exact (pinned_fold_favorites gen data.nodes.length hginj data.nodes
      _ (by simp) (fun i _ hiN => hfresh i hiN) hfavp).2 nid r hmem hpin hfile
  · rw [not_or]
    obtain ⟨fav, hfl, -⟩ := hfavp
    exact ⟨by simp [hfavt], by simp [hfl]⟩
  · rw [not_or]
    refine ⟨by simp [hqct], ?_⟩
    intro hc
    rw [hc] at hqcp
    cases hqcp

/-- A legacy-shaped document (no `quickcopy_root_id`) with one pinned file
entry. -/
def rawC3 : RawDB :=
  { nodes := [("f1", .node { id := some "f1", type := some "file"
                             pinned := some true })] }

/-- C3 (counterexample): for the legacy-shaped document `rawC3`, whose only
raw node entry carries `pinned: true` and parses to a file node,
`db_from_dict` creates no shortcut at all — the legacy branch returns
before the pinned migration loop — contradicting the claim that the
migration also applies to documents with no valid `quickcopy_root_id`. -/
theorem C3_pinned_migration_counterexample :
    rawC3.quickcopy_root_id = none ∧
    (∃ r, mlookup rawC3.nodes "f1" = some (.node r) ∧
      r.pinned = some true) ∧
    (∃ n, mlookup (db_from_dict genW rawC3).nodes "f1" = some n ∧
      n.type = .file) ∧
    ∀ p ∈ (db_from_dict genW rawC3).nodes, p.2.type ≠ .shortcut := by
  refine ⟨rfl,
    ⟨{ id := some "f1", type := some "file", pinned := some true },
      by decide, rfl⟩,
    ⟨nodeW, by decide, rfl⟩, by decide⟩

/-- A new-format document with a pinned file entry, for the witness. -/
def rawC3new : RawDB :=
  { nodes :=
      [("qc", .node { id := some "qc", type := some "folder" }),
       ("fav", .node { id := some "fav", type := some "folder" }),
       ("f1", .node { id := some "f1", type := some "file"
                      pinned := some true })]
    quickcopy_root_id := some "qc"
    favorites_root_id := some "fav" }

theorem C3_pinned_migration_amended_witness :
    is_favorited (db_from_dict genW rawC3new) "f1" = true :=
  C3_pinned_migration_amended.2 genW rawC3new "f1"
    { id := some "f1", type := some "file", pinned := some true }
    (by decide) (by decide) (by decide)
    ⟨{ id := "fav", type := .folder, name := "Untitled" }, by decide, rfl⟩
    (by decide) (by decide) (by decide) rfl
    ⟨{ id := "f1", type := .file, name := "Untitled", children := []
       content := some { read_doc := blank_rich_doc
                         copy_docs := [blank_rich_doc] }
       target_id := none }, by decide, rfl⟩

end NotaryQuickCopy

namespace NotaryQuickCopy

/-! ### C8: toggling favorites -/

/-- The number of favorites-root children that are shortcuts targeting the
given file. -/
def countFav (db : Database) (file_id : String) : Nat :=
  match mlookup db.nodes db.favorites_root_id with
  | none => 0
  | some fav_root =>
      if fav_root.type = .folder then
        (fav_root.children.filter (favScanPred db.nodes file_id)).length
      else 0

theorem is_favorited_iff_countFav (db : Database) (fid : String) :
    is_favorited db fid = true ↔ 0 < countFav db fid := by
  rw [is_favorited, countFav]
  split
  · simp
  · rename_i fav_root heq
    split
    · rw [List.any_eq_true, List.length_pos]
      rw [Ne, List.filter_eq_nil_iff]
      push_neg
      simp
    · simp

theorem is_favorited_false_countFav (db : Database) (fid : String)
    (h : is_favorited db fid = false) : countFav db fid = 0 := by
  by_contra hc
  rw [← ne_eq, ← Nat.pos_iff_ne_zero, ← is_favorited_iff_countFav] at hc
  rw [h] at hc
  cases hc

/-- `_add_shortcut_for_target` either leaves the store unchanged (invalid
target or favorites root, or an existing shortcut) or creates exactly the
same insert-and-append shape as `_ensure_favorite_shortcut`. -/
theorem add_create_or_skip (gen : Nat → String) (st : Database × Nat)
    (fid : String)
    (hfresh : mlookup st.1.nodes (gen st.2) = none) :
    (add_shortcut_for_target gen st fid = st ∧
      (is_favorited st.1 fid = true ∨
       mlookup st.1.nodes st.1.favorites_root_id = none ∨
       (∃ fav, mlookup st.1.nodes st.1.favorites_root_id = some fav ∧
         fav.type ≠ .folder) ∨
       mlookup st.1.nodes fid = none ∨
       (∃ t, mlookup st.1.nodes fid = some t ∧ t.type ≠ .file))) ∨
    ∃ fav_root target,
      mlookup st.1.nodes st.1.favorites_root_id = some fav_root ∧
      fav_root.type = .folder ∧
      mlookup st.1.nodes fid = some target ∧ target.type = .file ∧
      is_favorited st.1 fid = false ∧
      add_shortcut_for_target gen st fid =
        shortcut_created st fid (gen st.2) target := by
  rw [add_shortcut_for_target]
  split
  · rename_i target fav_root heq2 heq
    split
    · rename_i hok
      split
      · rename_i hsc
        exact Or.inl ⟨rfl, Or.inl (is_favorited_intro heq hok.2 hsc)⟩
      · rename_i hnsc
        refine Or.inr ⟨fav_root, target, heq, hok.2, heq2, hok.1, ?_, ?_⟩
        · rw [is_favorited]
          split
          · rename_i hnone
            rw [hnone] at heq
          · rename_i fav2 heq3
            rw [heq3] at heq
            cases heq
            rw [if_pos hok.2]
            simpa using hnsc
        · have hne : gen st.2 ≠ st.1.favorites_root_id := by
            intro hcontra
            rw [hcontra, heq] at hfresh
            cases hfresh
          simp only [shortcut_created]
          simp [hne]
    · rename_i hnok
      rw [Decidable.not_and_iff_or_not] at hnok
      rcases hnok with h | h
      · exact Or.inl ⟨rfl, Or.inr (Or.inr (Or.inr (Or.inr ⟨target, heq2, h⟩)))⟩
      · exact Or.inl ⟨rfl, Or.inr (Or.inr (Or.inl ⟨fav_root, heq, h⟩))⟩
  · rename_i hmiss
    rcases htgt : mlookup st.1.nodes fid with _ | target
    · exact Or.inl ⟨rfl, Or.inr (Or.inr (Or.inr (Or.inl rfl)))⟩
    · rcases hfavl : mlookup st.1.nodes st.1.favorites_root_id with _ | fav
      · exact Or.inl ⟨rfl, Or.inr (Or.inl rfl)⟩
      · exact (hmiss target fav htgt hfavl).elim

/-- The store produced by the removing branch of
`_remove_shortcut_for_target`: erase the child from the favorites root and
pop the shortcut node. -/
def shortcut_removed (db : Database) (cid : String) : Database :=
  { db with nodes :=
      dremove (dmodify db.nodes db.favorites_root_id
        (fun f => { f with children := f.children.erase cid })) cid }

/-- `_remove_shortcut_for_target` either leaves the store unchanged (no
matching favorites shortcut) or erases the first matching child and pops
its node. -/
theorem remove_cases (db : Database) (fid : String) :
    (remove_shortcut_for_target db fid = db ∧
      is_favorited db fid = false) ∨
    ∃ fav cid, mlookup db.nodes db.favorites_root_id = some fav ∧
      fav.type = .folder ∧
      fav.children.find? (favScanPred db.nodes fid) = some cid ∧
      remove_shortcut_for_target db fid = shortcut_removed db cid := by
  rw [remove_shortcut_for_target]
  split
  · rename_i hnone
    refine Or.inl ⟨rfl, ?_⟩
    rw [is_favorited, hnone]
  · rename_i fav heq
    split
    · rename_i hfolder
      split
      · rename_i cid hfind
        exact Or.inr ⟨fav, cid, heq, hfolder, hfind, rfl⟩
      · rename_i hfind
        refine Or.inl ⟨rfl, ?_⟩
        rw [is_favorited]
        split
        · rename_i hnone
          rw [hnone] at heq
        · rename_i fav2 heq2
          rw [heq2] at heq
          cases heq
          rw [if_pos hfolder]
          rw [← Bool.not_eq_true, List.any_eq_true]
          rintro ⟨cid, hmem, hp⟩
          have := List.find?_eq_none.mp hfind cid hmem
          rw [hp] at this
          cases this rfl
    · rename_i hnfolder
      refine Or.inl ⟨rfl, ?_⟩
      rw [is_favorited]
      split
      · rfl
      · rename_i fav2 heq2
        rw [heq2] at heq
        cases heq
        rw [if_neg hnfolder]

end NotaryQuickCopy

namespace NotaryQuickCopy

theorem countFav_eq_of_lookup {db : Database} {fid : String} {fav : Node}
    (h : mlookup db.nodes db.favorites_root_id = some fav)
    (hfolder : fav.type = .folder) :
    countFav db fid = (fav.children.filter (favScanPred db.nodes fid)).length := by
  rw [countFav]
  split
  · rename_i hnone
    rw [hnone] at h
    cases h
  · rename_i fav2 heq
    rw [heq] at h
    cases h
    rw [if_pos hfolder]

theorem favScanPred_created (st : Database × Nat) (fid scId : String)
    (target : Node) (hne : scId ≠ st.1.favorites_root_id)
    (fid' cid : String) (hcs : cid ≠ scId) :
    favScanPred (shortcut_created st fid scId target).1.nodes fid' cid =
      favScanPred st.1.nodes fid' cid := by
  by_cases hcf : cid = st.1.favorites_root_id
  · subst hcf
    rw [favScanPred, favScanPred, shortcut_created_lookup_fav _ _ _ _ hne]
    cases mlookup st.1.nodes st.1.favorites_root_id with
    | none => rfl
    | some fav => rfl
  · rw [favScanPred, favScanPred,
      shortcut_created_lookup_other _ _ _ _ _ hcs hcf]

theorem countFav_created (st : Database × Nat) (fid scId : String)
    (target fav : Node)
    (hfav : mlookup st.1.nodes st.1.favorites_root_id = some fav)
    (hfolder : fav.type = .folder)
    (hne : scId ≠ st.1.favorites_root_id) (hnotin : scId ∉ fav.children) :
    countFav (shortcut_created st fid scId target).1 fid =
      countFav st.1 fid + 1 := by
  have h1 : mlookup (shortcut_created st fid scId target).1.nodes
      (shortcut_created st fid scId target).1.favorites_root_id =
      some { fav with children := fav.children ++ [scId] } := by
    rw [shortcut_created_favroot, shortcut_created_lookup_fav _ _ _ _ hne,
      hfav]
    rfl
  rw [countFav_eq_of_lookup h1 hfolder, countFav_eq_of_lookup hfav hfolder]
  simp only [shortcut_created_favroot]
  rw [List.filter_append]
  have hsc : favScanPred (shortcut_created st fid scId target).1.nodes fid
      scId = true := by
    rw [favScanPred, shortcut_created_lookup_sc _ _ _ _ hne]
    simp
  rw [List.filter_congr (fun c hc =>
    favScanPred_created st fid scId target hne fid c
      (fun h => hnotin (h ▸ hc)))]
  simp [hsc]

theorem shortcut_removed_lookup_cid (db : Database) (cid : String) :
    mlookup (shortcut_removed db cid).nodes cid = none := by
  rw [shortcut_removed]
  exact mlookup_dremove_self _ _

theorem shortcut_removed_lookup_fav (db : Database) (cid : String)
    (hne : cid ≠ db.favorites_root_id) :
    mlookup (shortcut_removed db cid).nodes db.favorites_root_id =
      (mlookup db.nodes db.favorites_root_id).map
        (fun f => { f with children := f.children.erase cid }) := by
  rw [shortcut_removed]
  simp only []
  rw [mlookup_dremove_ne _ _ _ hne, mlookup_dmodify_self]

theorem shortcut_removed_lookup_other (db : Database) (cid k : String)
    (h1 : k ≠ cid) (h2 : k ≠ db.favorites_root_id) :
    mlookup (shortcut_removed db cid).nodes k = mlookup db.nodes k := by
  rw [shortcut_removed]
  simp only []
  rw [mlookup_dremove_ne _ _ _ (Ne.symm h1), mlookup_dmodify_ne _ _ _ _ (Ne.symm h2)]

theorem removed_not_favorited (db : Database) (fid : String) (fav : Node)
    (cid : String)
    (hfav : mlookup db.nodes db.favorites_root_id = some fav)
    (hfolder : fav.type = .folder)
    (hfind : fav.children.find? (favScanPred db.nodes fid) = some cid)
    (hone : countFav db fid ≤ 1) :
    is_favorited (shortcut_removed db cid) fid = false := by
  have hpred : favScanPred db.nodes fid cid = true := List.find?_some hfind
  have hmem : cid ∈ fav.children := List.mem_of_find?_eq_some hfind
  obtain ⟨n, hn, hns, hnt⟩ := (favScanPred_iff _ _ _).mp hpred
  have hcf : cid ≠ db.favorites_root_id := by
    intro hc
    rw [hc, hfav] at hn
    cases hn
    rw [hns] at hfolder
    cases hfolder
  rw [← Bool.not_eq_true]
  intro hcontra
  obtain ⟨fav2, hfav2, -, hany⟩ := is_favorited_elim hcontra
  rw [show (shortcut_removed db cid).favorites_root_id =
        db.favorites_root_id from rfl,
    shortcut_removed_lookup_fav db cid hcf, hfav] at hfav2
  cases hfav2
  rw [List.any_eq_true] at hany
  obtain ⟨cid', hmem', hpred'⟩ := hany
  obtain ⟨n', hn', hns', hnt'⟩ := (favScanPred_iff _ _ _).mp hpred'
  have hcc : cid' ≠ cid := by
    intro hc
    rw [hc, shortcut_removed_lookup_cid] at hn'
    cases hn'
  have hcf' : cid' ≠ db.favorites_root_id := by
    intro hc
    rw [hc, shortcut_removed_lookup_fav db cid hcf, hfav] at hn'
    cases hn'
    rw [hns'] at hfolder
    cases hfolder
  rw [shortcut_removed_lookup_other db cid cid' hcc hcf'] at hn'
  have hpredo : favScanPred db.nodes fid cid' = true :=
    (favScanPred_iff _ _ _).mpr ⟨n', hn', hns', hnt'⟩
  have hmemo : cid' ∈ fav.children :=
    List.mem_of_mem_erase hmem'
  -- two distinct matching children contradict the at-most-one count
  rw [countFav_eq_of_lookup hfav hfolder] at hone
  have h1 : cid ∈ fav.children.filter (favScanPred db.nodes fid) :=
    List.mem_filter.mpr ⟨hmem, hpred⟩
  have h2 : cid' ∈ fav.children.filter (favScanPred db.nodes fid) :=
    List.mem_filter.mpr ⟨hmemo, hpredo⟩
  rcases hl : fav.children.filter (favScanPred db.nodes fid) with _ | ⟨a, l2⟩
  · rw [hl] at h1
    cases h1
  · rw [hl] at h1 h2 hone
    simp at hone
    subst hone
    rw [List.mem_singleton] at h1 h2
    exact hcc (h2.trans h1.symm)

end NotaryQuickCopy

namespace NotaryQuickCopy

theorem shortcut_removed_fresh (db : Database) (cid x : String)
    (hx : mlookup db.nodes x = none) :
    mlookup (shortcut_removed db cid).nodes x = none := by
  by_cases h1 : x = cid
  · subst h1
    exact shortcut_removed_lookup_cid _ _
  · by_cases h2 : x = db.favorites_root_id
    · subst h2
      rw [shortcut_removed_lookup_fav db cid (fun hc => h1 (hc.symm ▸ rfl)), hx]
      rfl
    · rw [shortcut_removed_lookup_other db cid x h1 h2]
      exact hx

/-- `toggle_favorite_selected` on an id that resolves to a file node is the
remove-or-add dispatch. -/
theorem toggle_file (gen : Nat → String) (st : Database × Nat)
    (fid : String) (f : Node) (hf : mlookup st.1.nodes fid = some f)
    (hft : f.type = .file) :
    toggle_favorite_selected gen st fid =
      if is_favorited st.1 fid then
        (remove_shortcut_for_target st.1 fid, st.2)
      else add_shortcut_for_target gen st fid := by
  rw [toggle_favorite_selected]
  split
  · rename_i hnone
    rw [hnone] at hf
    cases hf
  · rename_i node heq
    rw [heq] at hf
    cases hf
    rw [if_neg (by rw [hft]; intro h; cases h),
      if_neg (by rw [hft]; simp)]

/-- When the id resolves to a file node and the favorites root is a valid
folder, `FileView._toggle_favorite` computes the same store and counter as
`ExplorerView.toggle_favorite_selected` (freshness of the generated id is
only relevant when a shortcut is created). -/
theorem fileview_toggle_eq (gen : Nat → String) (st : Database × Nat)
    (fid : String) (f fav : Node)
    (hf : mlookup st.1.nodes fid = some f) (hft : f.type = .file)
    (hfav : mlookup st.1.nodes st.1.favorites_root_id = some fav)
    (hfavt : fav.type = .folder)
    (hfresh : is_favorited st.1 fid = false →
      mlookup st.1.nodes (gen st.2) = none) :
    fileview_toggle_favorite gen st fid = toggle_favorite_selected gen st fid := by
  rw [toggle_file gen st fid f hf hft, fileview_toggle_favorite]
  split
  · rename_i hnone
    rw [hnone] at hfav
    cases hfav
  · rename_i fav2 heq
    rw [heq] at hfav
    cases hfav
    rw [if_pos hfavt]
    by_cases hisf : is_favorited st.1 fid = true
    · rw [if_pos hisf, if_pos hisf]
    · rw [if_neg hisf, if_neg hisf]
      have hisf' : is_favorited st.1 fid = false := by
        rw [← Bool.not_eq_true]
        exact hisf
      rcases add_create_or_skip gen st fid (hfresh hisf') with
        ⟨heqa, hreason⟩ | ⟨fr, tg, hfr, -, htg, -, -, heqa⟩
      · exfalso
        rcases hreason with h | h | ⟨fav3, h3, hnf3⟩ | h | ⟨t3, h3, hnf3⟩
        · exact hisf h
        · rw [heq] at h
          cases h
        · rw [heq] at h3
          cases h3
          exact hnf3 hfavt
        · rw [hf] at h
          cases h
        · rw [hf] at h3
          cases h3
          exact hnf3 hft
      · rw [heqa]
        rw [htg] at hf
        cases hf
        split
        · rename_i tg2 heq2
          rw [htg] at heq2
          cases heq2
          rw [if_pos hft]
          have hne : gen st.2 ≠ st.1.favorites_root_id := by
            intro hcontra
            rw [hcontra, heq] at hfresh
            have := hfresh hisf'
            cases this
          simp only [shortcut_created]
          simp [hne]
        · rename_i heq2
          rw [htg] at heq2
          cases heq2

/-- C8: on a file id, toggling the favorite twice restores the original
favorited state, and at every point — before (hypothesis `hone`), between
and after the two calls — the favorites root's children contain at most
one shortcut targeting that file.  Freshness of the (single) generated
uuid is assumed: it is unused as a key and absent from the favorites
root's children. -/
theorem C8_toggle_favorite_pair (gen : Nat → String) (db : Database)
    (c : Nat) (fid : String)
    (hfile : ∃ f, mlookup db.nodes fid = some f ∧ f.type = .file)
    (hfav : ∃ fav, mlookup db.nodes db.favorites_root_id = some fav ∧
      fav.type = .folder)
    (hone : countFav db fid ≤ 1)
    (hfresh : mlookup db.nodes (gen c) = none)
    (hfreshch : ∀ favn, mlookup db.nodes db.favorites_root_id = some favn →
      gen c ∉ favn.children) :
    is_favorited (toggle_favorite_selected gen
        (toggle_favorite_selected gen (db, c) fid) fid).1 fid =
      is_favorited db fid ∧
    countFav (toggle_favorite_selected gen (db, c) fid).1 fid ≤ 1 ∧
    countFav (toggle_favorite_selected gen
        (toggle_favorite_selected gen (db, c) fid) fid).1 fid ≤ 1 ∧
    fileview_toggle_favorite gen (db, c) fid =
      toggle_favorite_selected gen (db, c) fid ∧
    fileview_toggle_favorite gen
        (toggle_favorite_selected gen (db, c) fid) fid =
      toggle_favorite_selected gen
        (toggle_favorite_selected gen (db, c) fid) fid := by
  obtain ⟨f, hf, hft⟩ := hfile
  obtain ⟨fav, hfavl, hfavt⟩ := hfav
  by_cases hfavd : is_favorited db fid = true
  · -- initially favorited: remove, then re-add
    rw [toggle_file gen (db, c) fid f hf hft]
    simp only [hfavd, if_pos]
    rcases remove_cases db fid with ⟨-, hnot⟩ | ⟨fav2, cid, hfav2, hfolder2, hfind, heqr⟩
    · rw [hfavd] at hnot
      cases hnot
    · rw [hfav2] at hfavl
      cases hfavl
      rw [heqr]
      set db1 := shortcut_removed db cid with hdb1
      have hnotfav1 : is_favorited db1 fid = false :=
        removed_not_favorited db fid fav cid hfav2 hfolder2 hfind hone
      have hcount1 : countFav db1 fid = 0 :=
        is_favorited_false_countFav db1 fid hnotfav1
      -- facts carried to the second toggle
      have hpred : favScanPred db.nodes fid cid = true := List.find?_some hfind
      obtain ⟨n, hn, hns, -⟩ := (favScanPred_iff _ _ _).mp hpred
      have hfc : fid ≠ cid := by
        intro hc
        rw [← hc, hf] at hn
        cases hn
        rw [hft] at hns
        cases hns
      have hcf : cid ≠ db.favorites_root_id := by
        intro hc
        rw [hc, hfav2] at hn
        cases hn
        rw [hns] at hfolder2
        cases hfolder2
      have hff : fid ≠ db.favorites_root_id := by
        intro hc
        rw [hc, hfav2] at hf
        cases hf
        rw [hft] at hfolder2
        cases hfolder2
      have hf1 : mlookup db1.nodes fid = some f := by
        rw [hdb1, shortcut_removed_lookup_other db cid fid hfc hff]
        exact hf
      have hfav1 : mlookup db1.nodes db1.favorites_root_id =
          some { fav with children := fav.children.erase cid } := by
        rw [hdb1, show (shortcut_removed db cid).favorites_root_id =
          db.favorites_root_id from rfl,
          shortcut_removed_lookup_fav db cid hcf, hfav2]
        rfl
      have hfresh1 : mlookup db1.nodes (gen c) = none :=
        shortcut_removed_fresh db cid (gen c) hfresh
      rw [toggle_file gen (db1, c) fid f hf1 hft]
      simp only [hnotfav1, Bool.false_eq_true, if_neg, if_false]
      rcases add_create_or_skip gen (db1, c) fid hfresh1 with
        ⟨-, hreason⟩ | ⟨fr, tg, hfr, -, htg, -, -, heqa⟩
      · exfalso
        rcases hreason with h | h | ⟨fav3, h3, hnf3⟩ | h | ⟨t3, h3, hnf3⟩
        · rw [hnotfav1] at h
          cases h
        · rw [hfav1] at h
          cases h
        · rw [hfav1] at h3
          cases h3
          exact hnf3 hfolder2
        · rw [hf1] at h
          cases h
        · rw [hf1] at h3
          cases h3
          exact hnf3 hft
      · rw [heqa]
        have hne1 : gen c ≠ db1.favorites_root_id := by
          intro hc
          rw [hc, hfav1] at hfresh1
          cases hfresh1
        have hnotin1 : gen c ∉ ({ fav with
            children := fav.children.erase cid } : Node).children := by
          intro hc
          exact hfreshch fav hfav2 (List.mem_of_mem_erase hc)
        refine ⟨?_, ?_, ?_, ?_, ?_⟩
        · exact shortcut_created_is_favorited (db1, c) fid (gen c) tg
            hfresh1 ⟨_, hfav1, hfolder2⟩
        · rw [hcount1]
          exact Nat.zero_le 1
        · rw [countFav_created (db1, c) fid (gen c) tg _ hfav1 hfolder2
            hne1 hnotin1, hcount1]
        · rw [fileview_toggle_eq gen (db, c) fid f fav hf hft hfav2 hfolder2
            (fun h => by rw [hfavd] at h; cases h)]
          rw [toggle_file gen (db, c) fid f hf hft]
          simp only [hfavd, if_pos]
          rw [heqr]
        · rw [fileview_toggle_eq gen (db1, c) fid f _ hf1 hft hfav1 hfolder2
            (fun h2 => hfresh1)]
          rw [toggle_file gen (db1, c) fid f hf1 hft]
          simp only [hnotfav1, Bool.false_eq_true, if_neg, if_false]
          rw [heqa]
  · -- initially not favorited: add, then remove
    rw [Bool.not_eq_true] at hfavd
    rw [toggle_file gen (db, c) fid f hf hft]
    simp only [hfavd, Bool.false_eq_true, if_neg, if_false]
    rcases add_create_or_skip gen (db, c) fid hfresh with
      ⟨-, hreason⟩ | ⟨fr, tg, hfr, -, htg, -, -, heqa⟩
    · exfalso
      rcases hreason with h | h | ⟨fav3, h3, hnf3⟩ | h | ⟨t3, h3, hnf3⟩
      · rw [hfavd] at h
        cases h
      · rw [hfavl] at h
        cases h
      · rw [hfavl] at h3
        cases h3
        exact hnf3 hfavt
      · rw [hf] at h
        cases h
      · rw [hf] at h3
        cases h3
        exact hnf3 hft
    · rw [heqa]
      set st1 := shortcut_created (db, c) fid (gen c) tg with hst1
      have hne : gen c ≠ db.favorites_root_id := by
        intro hc
        rw [hc, hfavl] at hfresh
        cases hfresh
      have hcount0 : countFav db fid = 0 :=
        is_favorited_false_countFav db fid hfavd
      have hcount1 : countFav st1.1 fid = 1 := by
        rw [hst1, countFav_created (db, c) fid (gen c) tg fav hfavl hfavt hne
          (fun hc => hfreshch fav hfavl hc), hcount0]
      have hfav1 : mlookup st1.1.nodes st1.1.favorites_root_id =
          some { fav with children := fav.children ++ [gen c] } := by
        rw [hst1, shortcut_created_favroot,
          shortcut_created_lookup_fav _ _ _ _ hne, hfavl]
        rfl
      have hisfav1 : is_favorited st1.1 fid = true := by
        rw [hst1]
        exact shortcut_created_is_favorited (db, c) fid (gen c) tg hfresh
          ⟨fav, hfavl, hfavt⟩
      have hfgc : fid ≠ gen c := by
        intro hc
        rw [hc, hfresh] at hf
        cases hf
      have hff : fid ≠ db.favorites_root_id := by
        intro hc
        rw [hc, hfavl] at hf
        cases hf
        rw [hft] at hfavt
        cases hfavt
      have hf1 : mlookup st1.1.nodes fid = some f := by
        rw [hst1, shortcut_created_lookup_other (db, c) fid (gen c) tg fid
          hfgc hff]
        exact hf
      rw [toggle_file gen st1 fid f hf1 hft]
      simp only [hisfav1, if_pos]
      rcases remove_cases st1.1 fid with ⟨heq2, hnot2⟩ |
        ⟨fav2, cid, hfav2, hfolder2, hfind2, heqr2⟩
      · rw [hisfav1] at hnot2
        cases hnot2
      · rw [heqr2]
        have hone1 : countFav st1.1 fid ≤ 1 := by rw [hcount1]
        have hnotfav2 : is_favorited (shortcut_removed st1.1 cid) fid = false :=
          removed_not_favorited st1.1 fid fav2 cid hfav2 hfolder2 hfind2 hone1
        refine ⟨?_, ?_, ?_, ?_, ?_⟩
        · rw [hnotfav2]
        · rw [hcount1]
        · rw [is_favorited_false_countFav _ _ hnotfav2]
          exact Nat.zero_le 1
        · rw [fileview_toggle_eq gen (db, c) fid f fav hf hft hfavl hfavt
            (fun h2 => hfresh)]
          rw [toggle_file gen (db, c) fid f hf hft]
          simp only [hfavd, Bool.false_eq_true, if_neg, if_false]
          rw [heqa]
        · rw [fileview_toggle_eq gen st1 fid f _ hf1 hft hfav1 hfavt
            (fun h2 => by rw [hisfav1] at h2; cases h2)]
          rw [toggle_file gen st1 fid f hf1 hft]
          simp only [hisfav1, if_pos]
          rw [heqr2]
  
end NotaryQuickCopy

namespace NotaryQuickCopy

/-- The favorites root of `dbC4file`, for the C8 witness. -/
def favC8 : Node := { id := "fav", type := .folder, name := "Favorites" }

/-- The file node of `dbC4file`, for the C8 witness. -/
def fileC8 : Node :=
  { id := "f", type := .file, name := "Notes"
    content := some { read_doc := blank_rich_doc
                      copy_docs := [blank_rich_doc] } }

theorem C8_toggle_favorite_pair_witness :
    is_favorited (toggle_favorite_selected genW
        (toggle_favorite_selected genW (dbC4file, 0) "f") "f").1 "f" =
      is_favorited dbC4file "f" ∧
    countFav (toggle_favorite_selected genW (dbC4file, 0) "f").1 "f" ≤ 1 ∧
    countFav (toggle_favorite_selected genW
        (toggle_favorite_selected genW (dbC4file, 0) "f") "f").1 "f" ≤ 1 ∧
    fileview_toggle_favorite genW (dbC4file, 0) "f" =
      toggle_favorite_selected genW (dbC4file, 0) "f" ∧
    fileview_toggle_favorite genW
        (toggle_favorite_selected genW (dbC4file, 0) "f") "f" =
      toggle_favorite_selected genW
        (toggle_favorite_selected genW (dbC4file, 0) "f") "f" :=
  C8_toggle_favorite_pair genW dbC4file 0 "f"
    ⟨fileC8, by decide, rfl⟩
    ⟨favC8, by decide, rfl⟩
    (by decide) (by decide)
    (by
      intro favn h
      rw [show mlookup dbC4file.nodes dbC4file.favorites_root_id =
        some favC8 from by decide] at h
      cases h
      decide)

end NotaryQuickCopy

namespace NotaryQuickCopy

/-! ### C9: rename keeps favorites shortcut names in sync -/

theorem renameScStep_lookup (nid newName : String)
    (acc : List (String × Node)) (cid k : String) :
    mlookup (renameScStep nid newName acc cid) k = mlookup acc k ∨
    ∃ n0, mlookup acc k = some n0 ∧ n0.type = .shortcut ∧
      n0.target_id = some nid ∧
      mlookup (renameScStep nid newName acc cid) k =
        some { n0 with name := newName } := by
  rw [renameScStep]
  split
  · rename_i sc hsc
    split
    · rename_i hcond
      by_cases hk : cid = k
      · subst hk
        refine Or.inr ⟨sc, hsc, hcond.1, hcond.2, ?_⟩
        rw [mlookup_dmodify_self, hsc]
        rfl
      · exact Or.inl (mlookup_dmodify_ne _ _ _ _ hk)
    · exact Or.inl rfl
  · exact Or.inl rfl

theorem renameScFold_lookup (nid newName : String)
    (cs : List String) (acc : List (String × Node)) (k : String) :
    mlookup (cs.foldl (renameScStep nid newName) acc) k = mlookup acc k ∨
    ∃ n0, mlookup acc k = some n0 ∧ n0.type = .shortcut ∧
      n0.target_id = some nid ∧
      mlookup (cs.foldl (renameScStep nid newName) acc) k =
        some { n0 with name := newName } := by
  induction cs generalizing acc with
  | nil => exact Or.inl rfl
  | cons c rest ih =>
      rw [List.foldl_cons]
      rcases ih (renameScStep nid newName acc c) with h | ⟨n0, h1, h2, h3, h4⟩
      · rw [h]
        exact renameScStep_lookup nid newName acc c k
      · rcases renameScStep_lookup nid newName acc c k with h5 | ⟨n1, h6, h7, h8, h9⟩
        · rw [h5] at h1
          exact Or.inr ⟨n0, h1, h2, h3, h4⟩
        · rw [h9] at h1
          cases h1
          exact Or.inr ⟨n1, h6, h7, h8, by simpa using h4⟩

/-- After the sync fold, every child processed satisfies: if it is (still)
a shortcut targeting the renamed node, its name is the new name. -/
theorem renameScFold_good (nid newName : String) (cs : List String)
    (acc : List (String × Node)) (cid : String) (hcid : cid ∈ cs) :
    ∀ n', mlookup (cs.foldl (renameScStep nid newName) acc) cid = some n' →
      n'.type = .shortcut → n'.target_id = some nid →
      n'.name = newName := by
  induction cs generalizing acc with
  | nil => cases hcid
  | cons c rest ih =>
      rw [List.foldl_cons]
      rcases List.mem_cons.mp hcid with hc | hc
      · subst hc
        -- established at the head step, stable through the rest
        intro n' hl hs ht
        rcases renameScFold_lookup nid newName rest
            (renameScStep nid newName acc cid) cid with h | ⟨n0, h1, h2, h3, h4⟩
        · rw [h] at hl
          -- the head step has handled cid
          rw [renameScStep] at hl
          revert hl
          split
          · rename_i sc hsc
            split
            · rename_i hcond
              rw [mlookup_dmodify_self, hsc]
              intro hl
              cases hl
              rfl
            · rename_i hcond
              intro hl
              rw [hsc] at hl
              cases hl
              exact absurd ⟨hs, ht⟩ hcond
          · rename_i hsc
            intro hl
            rw [hsc] at hl
            cases hl
        · rw [h4] at hl
          cases hl
          rfl
      · exact ih (renameScStep nid newName acc c) hc

/-- The store after the in-place rename of the selected node. -/
def renamed_nodes (db : Database) (sel_id newName : String) :
    List (String × Node) :=
  dmodify db.nodes sel_id (fun n => { n with name := newName })

/-- The effect of `rename_selected` on a non-root file node: rename it in
place, then, when the favorites root resolves to a folder, run the
shortcut name-sync fold over its children. -/
theorem rename_char (db : Database) (sel_id new_name : String) (f : Node)
    (hf : mlookup db.nodes sel_id = some f) (hft : f.type = .file)
    (hroot1 : sel_id ≠ db.favorites_root_id)
    (hroot2 : sel_id ≠ db.quickcopy_root_id) :
    (∃ fav_root, mlookup db.nodes db.favorites_root_id = some fav_root ∧
      fav_root.type = .folder ∧
      rename_selected db sel_id new_name =
        { db with
            nodes := fav_root.children.foldl
              (renameScStep sel_id (safe_name new_name))
              (renamed_nodes db sel_id (safe_name new_name)) }) ∨
    ((mlookup db.nodes db.favorites_root_id = none ∨
      (∃ fav_root, mlookup db.nodes db.favorites_root_id = some fav_root ∧
        fav_root.type ≠ .folder)) ∧
      rename_selected db sel_id new_name =
        { db with nodes := renamed_nodes db sel_id (safe_name new_name) }) := by
  have hlf : mlookup (renamed_nodes db sel_id (safe_name new_name))
      db.favorites_root_id = mlookup db.nodes db.favorites_root_id :=
    mlookup_dmodify_ne _ _ _ _ hroot1
  rw [rename_selected, hf]
  simp only []
  rw [if_neg (by rw [not_or]; exact ⟨hroot1, hroot2⟩)]
  rw [if_neg (by rw [hft]; intro h; cases h), hf]
  simp only []
  rw [if_pos hft]
  split
  · rename_i fav_root heq
    rw [show dmodify db.nodes sel_id
        (fun n => { n with name := safe_name new_name }) =
        renamed_nodes db sel_id (safe_name new_name) from rfl, hlf] at heq
    by_cases hfolder : fav_root.type = .folder
    · rw [if_pos hfolder]
      exact Or.inl ⟨fav_root, heq, hfolder, rfl⟩
    · rw [if_neg hfolder]
      exact Or.inr ⟨Or.inr ⟨fav_root, heq, hfolder⟩, rfl⟩
  · rename_i heq
    rw [show dmodify db.nodes sel_id
        (fun n => { n with name := safe_name new_name }) =
        renamed_nodes db sel_id (safe_name new_name) from rfl, hlf] at heq
    exact Or.inr ⟨Or.inl heq, rfl⟩

/-- C9: renaming a (non-root) file node updates the name of every
favorites shortcut targeting it to the normalized new name; blank or
whitespace-only input normalizes to "Untitled".  The favorites root, when
present, is assumed to be a folder (the data-model invariant). -/
theorem C9_rename_syncs_favorites (db : Database) (sel_id new_name : String)
    (f : Node) (hf : mlookup db.nodes sel_id = some f)
    (hft : f.type = .file)
    (hroot1 : sel_id ≠ db.favorites_root_id)
    (hroot2 : sel_id ≠ db.quickcopy_root_id)
    (hfav : ∀ favn, mlookup db.nodes db.favorites_root_id = some favn →
      favn.type = .folder) :
    (∀ fav cid sc,
        mlookup (rename_selected db sel_id new_name).nodes
          (rename_selected db sel_id new_name).favorites_root_id =
          some fav →
        cid ∈ fav.children →
        mlookup (rename_selected db sel_id new_name).nodes cid = some sc →
        sc.type = .shortcut → sc.target_id = some sel_id →
        sc.name = safe_name new_name) ∧
    (strip new_name = "" → safe_name new_name = "Untitled") := by
  refine ⟨?_, fun h => by rw [safe_name, h]; rfl⟩
  intro fav cid sc hfavl hcid hsc hsct hscd
  rcases rename_char db sel_id new_name f hf hft hroot1 hroot2 with
    ⟨fav_root, heq, hfolder, heqr⟩ | ⟨hbad, heqr⟩
  · rw [heqr] at hfavl hsc
    have hlf : mlookup (renamed_nodes db sel_id (safe_name new_name))
        db.favorites_root_id = mlookup db.nodes db.favorites_root_id :=
      mlookup_dmodify_ne _ _ _ _ hroot1
    rcases renameScFold_lookup sel_id (safe_name new_name) fav_root.children
        (renamed_nodes db sel_id (safe_name new_name))
        db.favorites_root_id with h | ⟨n0, h1, h2, h3, h4⟩
    · rw [show ({ db with
            nodes := fav_root.children.foldl
              (renameScStep sel_id (safe_name new_name))
              (renamed_nodes db sel_id (safe_name new_name)) } :
          Database).favorites_root_id = db.favorites_root_id from rfl] at hfavl
      rw [show ({ db with
            nodes := fav_root.children.foldl
              (renameScStep sel_id (safe_name new_name))
              (renamed_nodes db sel_id (safe_name new_name)) } :
          Database).nodes = fav_root.children.foldl
              (renameScStep sel_id (safe_name new_name))
              (renamed_nodes db sel_id (safe_name new_name)) from rfl]
        at hfavl hsc
      rw [h, hlf, heq] at hfavl
      cases hfavl
      exact renameScFold_good sel_id (safe_name new_name) fav.children _
        cid hcid sc hsc hsct hscd
    · rw [hlf, heq] at h1
      cases h1
      rw [h2] at hfolder
      cases hfolder
  · rw [heqr] at hfavl
    rcases hbad with h | ⟨fav_root, heq, hnf⟩
    · rw [show ({ db with
            nodes := renamed_nodes db sel_id (safe_name new_name) } :
          Database).favorites_root_id = db.favorites_root_id from rfl,
        show ({ db with
            nodes := renamed_nodes db sel_id (safe_name new_name) } :
          Database).nodes =
          renamed_nodes db sel_id (safe_name new_name) from rfl,
        show mlookup (renamed_nodes db sel_id (safe_name new_name))
            db.favorites_root_id = mlookup db.nodes db.favorites_root_id from
          mlookup_dmodify_ne _ _ _ _ hroot1, h] at hfavl
      cases hfavl
    · exact absurd (hfav fav_root heq) hnf

end NotaryQuickCopy

namespace NotaryQuickCopy

/-- A store with a favorited file, for the C9 witness. -/
def dbC9 : Database :=
  { quickcopy_root_id := "qc", favorites_root_id := "fav"
    nodes :=
      [("fav", { id := "fav", type := .folder, name := "Favorites"
                 children := ["s"] }),
       ("qc", { id := "qc", type := .folder, name := "QuickCopy"
                children := ["f1"] }),
       ("f1", { id := "f1", type := .file, name := "Notes"
                content := some { read_doc := blank_rich_doc
                                  copy_docs := [blank_rich_doc] } }),
       ("s", { id := "s", type := .shortcut, name := "Notes"
               target_id := some "f1" })] }

/-- The favorites root of `dbC9`. -/
def favC9 : Node :=
  { id := "fav", type := .folder, name := "Favorites", children := ["s"] }

/-- The file node of `dbC9`. -/
def fileC9 : Node :=
  { id := "f1", type := .file, name := "Notes"
    content := some { read_doc := blank_rich_doc
                      copy_docs := [blank_rich_doc] } }

/-- The favorites shortcut of `dbC9` after renaming its target to a
whitespace-only name. -/
def scC9post : Node :=
  { id := "s", type := .shortcut, name := "Untitled"
    target_id := some "f1" }

theorem C9_rename_syncs_favorites_witness :
    scC9post.name = safe_name " " ∧ safe_name " " = "Untitled" :=
  ⟨(C9_rename_syncs_favorites dbC9 "f1" " " fileC9 (by decide) rfl
      (by decide) (by decide)
      (by
        intro favn h
        rw [show mlookup dbC9.nodes dbC9.favorites_root_id = some favC9 from
          by decide] at h
        cases h
        rfl)).1
    favC9 "s" scC9post (by decide) (by decide) (by decide) rfl rfl,
   (C9_rename_syncs_favorites dbC9 "f1" " " fileC9 (by decide) rfl
      (by decide) (by decide)
      (by
        intro favn h
        rw [show mlookup dbC9.nodes dbC9.favorites_root_id = some favC9 from
          by decide] at h
        cases h
        rfl)).2 (by decide)⟩

end NotaryQuickCopy

namespace NotaryQuickCopy

/-! ### C10: the implicit key-consistency invariant `nodes[k].id = k` -/

/-- Every node of a mapping is keyed by its own id field. -/
def KeyConsistent (m : List (String × Node)) : Prop :=
  ∀ p ∈ m, p.2.id = p.1

theorem KeyConsistent_dinsert {m : List (String × Node)} {k : String}
    {v : Node} (hm : KeyConsistent m) (hv : v.id = k) :
    KeyConsistent (dinsert m k v) := by
  intro p hp
  rcases mem_dinsert hp with h | h
  · exact hm p h
  · subst h
    exact hv

theorem KeyConsistent_dmodify {m : List (String × Node)} {k : String}
    {f : Node → Node} (hm : KeyConsistent m)
    (hf : ∀ v, (f v).id = v.id) : KeyConsistent (dmodify m k f) := by
  intro p hp
  rcases mem_dmodify hp with h | ⟨v0, hv0, hp2⟩
  · exact hm p h
  · subst hp2
    rw [hf v0]
    exact hm (k, v0) hv0

theorem KeyConsistent_dupdate {m m2 : List (String × Node)}
    (hm : KeyConsistent m) (hm2 : KeyConsistent m2) :
    KeyConsistent (dupdate m m2) := by
  intro p hp
  rcases mem_dupdate hp with h | h
  · exact hm p h
  · exact hm2 p h

theorem KeyConsistent_parseOneRaw {acc : List (String × Node)}
    (hm : KeyConsistent acc) (p : String × RawEntry) :
    KeyConsistent (parseOneRaw acc p) := by
  obtain ⟨k, e⟩ := p
  cases e with
  | junk => exact hm
  | node d =>
      rw [parseOneRaw]
      exact KeyConsistent_dinsert hm rfl

theorem KeyConsistent_parseRawNodes (nodesRaw : List (String × RawEntry)) :
    KeyConsistent (parseRawNodes nodesRaw) := by
  rw [parseRawNodes]
  generalize hacc : ([] : List (String × Node)) = acc
  have hOK : KeyConsistent acc := by
    subst hacc
    intro p hp
    simp at hp
  clear hacc
  induction nodesRaw generalizing acc with
  | nil => exact hOK
  | cons q rest ih =>
      rw [List.foldl_cons]
      exact ih _ (KeyConsistent_parseOneRaw hOK q)

theorem KeyConsistent_blank (favId qcId : String) :
    KeyConsistent (blank_database favId qcId).nodes := by
  intro p hp
  rw [blank_database] at hp
  rcases mem_dinsert hp with h | h
  · rcases mem_dinsert h with h2 | h2
    · simp at h2
    · subst h2
      rfl
  · subst h
    rfl

theorem KeyConsistent_ensure {st : Database × Nat} {gen : Nat → String}
    {file_id : String} (hm : KeyConsistent st.1.nodes) :
    KeyConsistent (ensure_favorite_shortcut gen st file_id).1.nodes := by
  rw [ensure_favorite_shortcut]
  cases hfav : mlookup st.1.nodes st.1.favorites_root_id with
  | none => exact hm
  | some fav_root =>
      simp only []
      split
      · split
        · exact hm
        · cases htgt : mlookup st.1.nodes file_id with
          | none => exact hm
          | some target =>
              simp only []
              split
              · split
                · refine KeyConsistent_dinsert hm ?_
                  rfl
                · refine KeyConsistent_dmodify
                    (KeyConsistent_dinsert hm ?_) (fun v => rfl)
                  rfl
              · exact hm
      · exact hm

theorem KeyConsistent_pinned_fold (gen : Nat → String)
    (raw : List (String × RawEntry)) (st : Database × Nat)
    (hm : KeyConsistent st.1.nodes) :
    KeyConsistent ((raw.foldl (pinnedStep gen) st).1).nodes := by
  induction raw generalizing st with
  | nil => exact hm
  | cons q rest ih =>
      rw [List.foldl_cons]
      apply ih
      rw [pinnedStep]
      obtain ⟨k, e⟩ := q
      cases e with
      | junk => exact hm
      | node r =>
          simp only []
          split
          · exact KeyConsistent_ensure hm
          · exact hm

theorem db_from_dict_KeyConsistent (gen : Nat → String) (data : RawDB) :
    KeyConsistent (db_from_dict gen data).nodes := by
  rw [db_from_dict]
  have hparse := KeyConsistent_parseRawNodes data.nodes
  split
  · split
    · apply KeyConsistent_dmodify
      · exact KeyConsistent_dupdate (KeyConsistent_blank _ _) hparse
      · intro v
        rfl
    · exact KeyConsistent_dupdate (KeyConsistent_blank _ _) hparse
  · split
    · apply KeyConsistent_pinned_fold
      exact KeyConsistent_dinsert hparse rfl
    · exact KeyConsistent_pinned_fold gen _ _ hparse

theorem KeyConsistent_create_folder (gen : Nat → String)
    (st : Database × Nat) (cur name : String)
    (hm : KeyConsistent st.1.nodes) :
    KeyConsistent (create_folder gen st cur name).1.nodes := by
  rw [create_folder]
  split
  · exact hm
  · split
    · simp only []
      repeat' split
      all_goals
        first
          | (refine KeyConsistent_dinsert hm ?_
             rfl)
          | (refine KeyConsistent_dmodify
               (KeyConsistent_dinsert hm ?_) (fun v => rfl)
             rfl)
    · exact hm

theorem KeyConsistent_create_file (gen : Nat → String)
    (st : Database × Nat) (cur name : String)
    (hm : KeyConsistent st.1.nodes) :
    KeyConsistent (create_file gen st cur name).1.nodes := by
  rw [create_file]
  split
  · exact hm
  · split
    · simp only []
      repeat' split
      all_goals
        first
          | (refine KeyConsistent_dinsert hm ?_
             rfl)
          | (refine KeyConsistent_dmodify
               (KeyConsistent_dinsert hm ?_) (fun v => rfl)
             rfl)
    · exact hm

theorem KeyConsistent_add_shortcut (gen : Nat → String)
    (st : Database × Nat) (fid : String)
    (hm : KeyConsistent st.1.nodes) :
    KeyConsistent (add_shortcut_for_target gen st fid).1.nodes := by
  rw [add_shortcut_for_target]
  split
  · simp only []
    split
    · split
      · exact hm
      · split
        · refine KeyConsistent_dinsert hm ?_
          rfl
        · refine KeyConsistent_dmodify
            (KeyConsistent_dinsert hm ?_) (fun v => rfl)
          rfl
    · exact hm
  · exact hm

theorem KeyConsistent_remap_fold (idMap : List (String × String))
    (l : List (String × Node)) :
    ∀ acc, KeyConsistent acc →
      KeyConsistent (l.foldl (import_remap_step idMap) acc) := by
  induction l with
  | nil => exact fun acc h => h
  | cons p rest ih =>
      intro acc h
      rw [List.foldl_cons]
      apply ih
      rw [import_remap_step]
      split
      · exact h
      · exact KeyConsistent_dinsert h rfl

theorem KeyConsistent_children_fold (idMap : List (String × String))
    (l : List (String × Node)) :
    ∀ acc, KeyConsistent acc →
      KeyConsistent (l.foldl (import_children_step idMap) acc) := by
  induction l with
  | nil => exact fun acc h => h
  | cons p rest ih =>
      intro acc h
      rw [List.foldl_cons]
      apply ih
      rw [import_children_step]
      split
      · split
        · exact KeyConsistent_dmodify h (fun v => rfl)
        · exact h
      · exact h

theorem KeyConsistent_attach_qc (idMap : List (String × String))
    (db incoming : Database) (nodes2 : List (String × Node)) (cur : String)
    (h : KeyConsistent nodes2) :
    KeyConsistent (import_attach_qc idMap db incoming nodes2 cur) := by
  rw [import_attach_qc]
  split
  · split
    · exact KeyConsistent_dmodify h (fun v => rfl)
    · exact h
  · exact h

theorem KeyConsistent_merge_fav (idMap : List (String × String))
    (db incoming : Database) (nodes3 : List (String × Node))
    (h : KeyConsistent nodes3) :
    KeyConsistent (import_merge_fav idMap db incoming nodes3) := by
  rw [import_merge_fav]
  split
  · split
    · split
      · exact KeyConsistent_dmodify h (fun v => rfl)
      · exact h
    · exact h
  · exact h

theorem explorer_import_bundle_KeyConsistent (gen : Nat → String)
    (db incoming : Database) (cur : String)
    (hm : KeyConsistent db.nodes) :
    KeyConsistent (explorer_import_bundle gen db incoming cur).nodes := by
  rw [explorer_import_bundle]
  exact KeyConsistent_merge_fav _ _ _ _
    (KeyConsistent_attach_qc _ _ _ _ _
      (KeyConsistent_children_fold _ _ _
        (KeyConsistent_remap_fold _ _ _ hm)))

end NotaryQuickCopy

namespace NotaryQuickCopy

/-- C10: implicit key-consistency invariant.  Every `Database` the program
constructs or mutates satisfies `nodes[k].id = k` for every key `k`:
`blank_database` and `db_from_dict` (which keys each parsed node by its
embedded id field) establish it unconditionally, and folder creation, file
creation, favorite-shortcut addition and bundle import all preserve it. -/
theorem C10_key_consistency :
    (∀ favId qcId, KeyConsistent (blank_database favId qcId).nodes) ∧
    (∀ (gen : Nat → String) (data : RawDB),
      KeyConsistent (db_from_dict gen data).nodes) ∧
    (∀ (gen : Nat → String) (st : Database × Nat) (cur nm : String),
      KeyConsistent st.1.nodes →
      KeyConsistent (create_folder gen st cur nm).1.nodes) ∧
    (∀ (gen : Nat → String) (st : Database × Nat) (cur nm : String),
      KeyConsistent st.1.nodes →
      KeyConsistent (create_file gen st cur nm).1.nodes) ∧
    (∀ (gen : Nat → String) (st : Database × Nat) (fid : String),
      KeyConsistent st.1.nodes →
      KeyConsistent (add_shortcut_for_target gen st fid).1.nodes) ∧
    (∀ (gen : Nat → String) (db incoming : Database) (cur : String),
      KeyConsistent db.nodes →
      KeyConsistent (explorer_import_bundle gen db incoming cur).nodes) :=
  ⟨KeyConsistent_blank, db_from_dict_KeyConsistent,
   KeyConsistent_create_folder, KeyConsistent_create_file,
   KeyConsistent_add_shortcut, explorer_import_bundle_KeyConsistent⟩

/-- A small key-consistent store exercising the mutators. -/
def dbC10 : Database :=
  { quickcopy_root_id := "qc", favorites_root_id := "fav"
    nodes :=
      [("fav", { id := "fav", type := .folder, name := "Favorites" }),
       ("qc", { id := "qc", type := .folder, name := "QuickCopy"
                children := ["f1"] }),
       ("f1", { id := "f1", type := .file, name := "Doc"
                content := some { read_doc := blank_rich_doc
                                  copy_docs := [blank_rich_doc] } })] }

theorem C10_key_consistency_witness :
    KeyConsistent (blank_database "f" "q").nodes ∧
    KeyConsistent (db_from_dict genW rawW).nodes ∧
    KeyConsistent (create_folder genW (dbC10, 0) "qc" "Sub").1.nodes ∧
    KeyConsistent (create_file genW (dbC10, 0) "qc" "Doc2").1.nodes ∧
    KeyConsistent (add_shortcut_for_target genW (dbC10, 0) "f1").1.nodes ∧
    KeyConsistent (explorer_import_bundle genW dbC10 dbC10 "qc").nodes :=
  ⟨C10_key_consistency.1 "f" "q",
   C10_key_consistency.2.1 genW rawW,
   C10_key_consistency.2.2.1 genW (dbC10, 0) "qc" "Sub"
     (by unfold KeyConsistent; decide),
   C10_key_consistency.2.2.2.1 genW (dbC10, 0) "qc" "Doc2"
     (by unfold KeyConsistent; decide),
   C10_key_consistency.2.2.2.2.1 genW (dbC10, 0) "f1"
     (by unfold KeyConsistent; decide),
   C10_key_consistency.2.2.2.2.2 genW dbC10 dbC10 "qc"
     (by unfold KeyConsistent; decide)⟩

end NotaryQuickCopy

namespace NotaryQuickCopy

/-! ### C2: the id remap of bundle import -/

theorem mlookup_append {α : Type} (m m2 : List (String × α)) (k : String) :
    mlookup (m ++ m2) k =
      match mlookup m k with
      | some v => some v
      | none => mlookup m2 k := by
  induction m with
  | nil => simp [mlookup]
  | cons p rest ih =>
      obtain ⟨k', v'⟩ := p
      rw [List.cons_append, mlookup_cons, mlookup_cons]
      by_cases hk : k' = k
      · simp [hk]
      · simp only [if_neg hk, ih]

theorem mlookup_append_some {α : Type} {m : List (String × α)}
    (m2 : List (String × α)) {k : String} {v : α}
    (h : mlookup m k = some v) : mlookup (m ++ m2) k = some v := by
  rw [mlookup_append, h]

theorem mlookup_append_none {α : Type} {m : List (String × α)}
    (m2 : List (String × α)) {k : String}
    (h : mlookup m k = none) : mlookup (m ++ m2) k = mlookup m2 k := by
  rw [mlookup_append, h]

/-- Soundness and completeness of the id-remap loop: every mapping entry
either keeps a non-colliding id or maps a colliding id to a generated one,
and every processed id gets an entry. -/
theorem idMap_fold_props (gen : Nat → String) (dbN : List (String × Node))
    (Good : String → Prop) (N : Nat)
    (hfresh : ∀ i, i < N → ¬ gen i ∈ dkeys dbN ∧ Good (gen i)) :
    ∀ (olds : List String) (acc : List (String × String)) (c : Nat),
      c + olds.length ≤ N →
      (∀ old newid, mlookup acc old = some newid →
        (¬ newid ∈ dkeys dbN) ∧
        ((mlookup dbN old).isSome →
          (∃ i, i < N ∧ newid = gen i) ∧ Good newid) ∧
        (mlookup dbN old = none → newid = old)) →
      ((∀ old newid,
          mlookup (olds.foldl (idMapStep gen dbN) (acc, c)).1 old =
            some newid →
          (¬ newid ∈ dkeys dbN) ∧
          ((mlookup dbN old).isSome →
            (∃ i, i < N ∧ newid = gen i) ∧ Good newid) ∧
          (mlookup dbN old = none → newid = old)) ∧
        (∀ old, old ∈ olds ∨ (mlookup acc old).isSome →
          (mlookup (olds.foldl (idMapStep gen dbN) (acc, c)).1
            old).isSome)) := by
  intro olds
  induction olds with
  | nil =>
      intro acc c hc hacc
      refine ⟨hacc, ?_⟩
      intro old hold
      rcases hold with h | h
      · simp at h
      · exact h
  | cons old rest ih =>
      intro acc c hc hacc
      rw [List.foldl_cons, idMapStep]
      by_cases hcol : (mlookup dbN old).isSome
      · rw [if_pos hcol]
        have hcN : c < N := by
          simp only [List.length_cons] at hc
          omega
        have hacc' : ∀ old' newid,
            mlookup (acc ++ [(old, gen c)]) old' = some newid →
            (¬ newid ∈ dkeys dbN) ∧
            ((mlookup dbN old').isSome →
              (∃ i, i < N ∧ newid = gen i) ∧ Good newid) ∧
            (mlookup dbN old' = none → newid = old') := by
          intro old' newid h
          cases hacc0 : mlookup acc old' with
          | some v =>
              rw [mlookup_append_some _ hacc0] at h
              cases h
              exact hacc old' _ hacc0
          | none =>
              rw [mlookup_append_none _ hacc0, mlookup_cons] at h
              by_cases ho : old = old'
              · rw [if_pos ho] at h
                cases h
                subst ho
                refine ⟨(hfresh c hcN).1,
                  fun _ => ⟨⟨c, hcN, rfl⟩, (hfresh c hcN).2⟩,
                  fun hnone => ?_⟩
                rw [hnone] at hcol
                simp at hcol
              · rw [if_neg ho] at h
                simp [mlookup] at h
        have hrec := ih (acc ++ [(old, gen c)]) (c + 1)
          (by simp only [List.length_cons] at hc; omega) hacc'
        refine ⟨hrec.1, ?_⟩
        intro old' hold
        apply hrec.2
        rcases hold with h | h
        · rcases List.mem_cons.mp h with h2 | h2
          · subst h2
            right
            cases hacc0 : mlookup acc old' with
            | some v => rw [mlookup_append_some _ hacc0]; rfl
            | none =>
                rw [mlookup_append_none _ hacc0, mlookup_cons]
                simp
          · exact Or.inl h2
        · right
          obtain ⟨v, hv⟩ := Option.isSome_iff_exists.mp h
          rw [mlookup_append_some _ hv]
          rfl
      · rw [if_neg hcol]
        have hdb : mlookup dbN old = none :=
          Option.not_isSome_iff_eq_none.mp hcol
        have hacc' : ∀ old' newid,
            mlookup (acc ++ [(old, old)]) old' = some newid →
            (¬ newid ∈ dkeys dbN) ∧
            ((mlookup dbN old').isSome →
              (∃ i, i < N ∧ newid = gen i) ∧ Good newid) ∧
            (mlookup dbN old' = none → newid = old') := by
          intro old' newid h
          cases hacc0 : mlookup acc old' with
          | some v =>
              rw [mlookup_append_some _ hacc0] at h
              cases h
              exact hacc old' _ hacc0
          | none =>
              rw [mlookup_append_none _ hacc0, mlookup_cons] at h
              by_cases ho : old = old'
              · rw [if_pos ho] at h
                cases h
                subst ho
                refine ⟨(mlookup_eq_none_iff _ _).mp hdb,
                  fun hs => ?_, fun _ => rfl⟩
                rw [hdb] at hs
                simp at hs
              · rw [if_neg ho] at h
                simp [mlookup] at h
        have hrec := ih (acc ++ [(old, old)]) c
          (by simp only [List.length_cons] at hc; omega) hacc'
        refine ⟨hrec.1, ?_⟩
        intro old' hold
        apply hrec.2
        rcases hold with h | h
        · rcases List.mem_cons.mp h with h2 | h2
          · subst h2
            right
            cases hacc0 : mlookup acc old' with
            | some v => rw [mlookup_append_some _ hacc0]; rfl
            | none =>
                rw [mlookup_append_none _ hacc0, mlookup_cons]
                simp
          · exact Or.inl h2
        · right
          obtain ⟨v, hv⟩ := Option.isSome_iff_exists.mp h
          rw [mlookup_append_some _ hv]
          rfl

/-- The first import pass never touches a key no remapped id can hit. -/
theorem remap_fold_lookup (idMap : List (String × String))
    (l : List (String × Node)) (k : String)
    (Hk : ∀ old newid, mlookup idMap old = some newid → newid ≠ k) :
    ∀ acc, mlookup (l.foldl (import_remap_step idMap) acc) k =
      mlookup acc k := by
  induction l with
  | nil => intro acc; rfl
  | cons p rest ih =>
      intro acc
      rw [List.foldl_cons, ih, import_remap_step]
      split
      · rfl
      · rename_i newid heq
        exact mlookup_dinsert_ne _ _ _ _ (Hk _ _ heq)

/-- The second import pass never touches a key no remapped id can hit. -/
theorem children_fold_lookup (idMap : List (String × String))
    (l : List (String × Node)) (k : String)
    (Hk : ∀ old newid, mlookup idMap old = some newid → newid ≠ k) :
    ∀ acc, mlookup (l.foldl (import_children_step idMap) acc) k =
      mlookup acc k := by
  induction l with
  | nil => intro acc; rfl
  | cons p rest ih =>
      intro acc
      rw [List.foldl_cons, ih, import_children_step]
      split
      · split
        · rename_i newid heq
          exact mlookup_dmodify_ne _ _ _ _ (Hk _ _ heq)
        · rfl
      · rfl

/-- An in-place modification that keeps ids keeps every looked-up id. -/
theorem mlookup_dmodify_id {m : List (String × Node)} (k₂ : String)
    {f : Node → Node} (hf : ∀ v, (f v).id = v.id) {k : String} {n : Node}
    (h : mlookup m k = some n) :
    ∃ n', mlookup (dmodify m k₂ f) k = some n' ∧ n'.id = n.id := by
  by_cases hk : k₂ = k
  · subst hk
    refine ⟨f n, ?_, hf n⟩
    rw [mlookup_dmodify_self, h]
    rfl
  · exact ⟨n, by rw [mlookup_dmodify_ne _ _ _ _ hk]; exact h, rfl⟩

theorem attach_qc_lookup_id (idMap : List (String × String))
    (db incoming : Database) (m : List (String × Node)) (cur : String)
    {k : String} {n : Node} (h : mlookup m k = some n) :
    ∃ n', mlookup (import_attach_qc idMap db incoming m cur) k = some n' ∧
      n'.id = n.id := by
  rw [import_attach_qc]
  split
  · split
    · refine mlookup_dmodify_id _ ?_ h
      exact fun v => rfl
    · exact ⟨n, h, rfl⟩
  · exact ⟨n, h, rfl⟩

theorem merge_fav_lookup_id (idMap : List (String × String))
    (db incoming : Database) (m : List (String × Node))
    {k : String} {n : Node} (h : mlookup m k = some n) :
    ∃ n', mlookup (import_merge_fav idMap db incoming m) k = some n' ∧
      n'.id = n.id := by
  rw [import_merge_fav]
  split
  · split
    · split
      · refine mlookup_dmodify_id _ ?_ h
        exact fun v => rfl
      · exact ⟨n, h, rfl⟩
    · exact ⟨n, h, rfl⟩
  · exact ⟨n, h, rfl⟩

end NotaryQuickCopy

namespace NotaryQuickCopy

/-- C2 (amended): `ExplorerView.import_bundle` leaves every pre-existing
node's id unchanged and inserts no imported node under a pre-existing id,
but the remap is PARTIAL, not full: a bundle id colliding with a
pre-existing id is remapped to a freshly generated id, while a
non-colliding bundle id is kept as it is.  The freshness hypothesis models
`uuid.uuid4()` never reproducing an existing key. -/
theorem C2_import_remap_amended (gen : Nat → String) (db incoming : Database)
    (cur : String)
    (hfresh : ∀ i, i < (dkeys incoming.nodes).length →
      ¬ gen i ∈ dkeys db.nodes ∧ ¬ gen i ∈ dkeys incoming.nodes) :
    (∀ k n, mlookup db.nodes k = some n →
      ∃ n', mlookup (explorer_import_bundle gen db incoming cur).nodes k =
        some n' ∧ n'.id = n.id) ∧
    (∀ old newid,
      mlookup (build_id_map gen db.nodes (dkeys incoming.nodes)).1 old =
        some newid → ¬ newid ∈ dkeys db.nodes) ∧
    (∀ old, old ∈ dkeys incoming.nodes →
      ∃ newid,
        mlookup (build_id_map gen db.nodes (dkeys incoming.nodes)).1 old =
          some newid ∧
        ((mlookup db.nodes old).isSome →
          (∃ i, i < (dkeys incoming.nodes).length ∧ newid = gen i) ∧
          ¬ newid ∈ dkeys incoming.nodes) ∧
        (mlookup db.nodes old = none → newid = old)) := by
  have hmain := idMap_fold_props gen db.nodes
    (fun s => ¬ s ∈ dkeys incoming.nodes) (dkeys incoming.nodes).length
    hfresh (dkeys incoming.nodes) [] 0 (by omega)
    (by intro old newid h; simp [mlookup] at h)
  rw [show (dkeys incoming.nodes).foldl (idMapStep gen db.nodes) ([], 0) =
      build_id_map gen db.nodes (dkeys incoming.nodes) from rfl] at hmain
  refine ⟨?_, fun old newid h => (hmain.1 old newid h).1, ?_⟩
  · intro k n h
    have hk : k ∈ dkeys db.nodes := (mlookup_isSome_iff_mem _ _).mp
      (by rw [h]; rfl)
    have Hk : ∀ old newid,
        mlookup (build_id_map gen db.nodes (dkeys incoming.nodes)).1 old =
          some newid → newid ≠ k :=
      fun old newid hm hek => (hmain.1 old newid hm).1 (hek ▸ hk)
    have h1 : mlookup
        (incoming.nodes.foldl
          (import_remap_step
            (build_id_map gen db.nodes (dkeys incoming.nodes)).1)
          db.nodes) k = some n := by
      rw [remap_fold_lookup _ _ _ Hk]
      exact h
    have h2 : mlookup
        (incoming.nodes.foldl
          (import_children_step
            (build_id_map gen db.nodes (dkeys incoming.nodes)).1)
          (incoming.nodes.foldl
            (import_remap_step
              (build_id_map gen db.nodes (dkeys incoming.nodes)).1)
            db.nodes)) k = some n := by
      rw [children_fold_lookup _ _ _ Hk]
      exact h1
    obtain ⟨n3, h3, hid3⟩ := attach_qc_lookup_id
      (build_id_map gen db.nodes (dkeys incoming.nodes)).1 db incoming _
      cur h2
    obtain ⟨n4, h4, hid4⟩ := merge_fav_lookup_id
      (build_id_map gen db.nodes (dkeys incoming.nodes)).1 db incoming _ h3
    exact ⟨n4, h4, by rw [hid4, hid3]⟩
  · intro old hold
    have hc := hmain.2 old (Or.inl hold)
    cases hm : mlookup
        (build_id_map gen db.nodes (dkeys incoming.nodes)).1 old with
    | none => rw [hm] at hc; simp at hc
    | some newid =>
        have hp := hmain.1 old newid hm
        exact ⟨newid, rfl, fun hs => (hp.2.1 hs).imp id (fun g => g),
          hp.2.2⟩

/-- An incoming store whose quickcopy root id collides with a pre-existing
id while its other ids do not. -/
def incC2 : Database :=
  { quickcopy_root_id := "qc", favorites_root_id := "ifav"
    nodes :=
      [("qc", { id := "qc", type := .folder, name := "QuickCopy"
                children := ["iq"] }),
       ("iq", { id := "iq", type := .folder, name := "Imported" }),
       ("ifav", { id := "ifav", type := .folder, name := "Favorites" })] }

/-- C2 (counterexample to the frozen claim): the bundle id "iq" does not
collide with any pre-existing id and is NOT remapped to a freshly generated
id — the id map sends it to itself and the imported node lands in the
store under its original bundle id. -/
theorem C2_import_remap_counterexample :
    mlookup (build_id_map genW dbC10.nodes (dkeys incC2.nodes)).1 "iq" =
      some "iq" ∧
    mlookup (explorer_import_bundle genW dbC10 incC2 "qc").nodes "iq" =
      some { id := "iq", type := .folder, name := "Imported" } ∧
    ¬ "iq" ∈ dkeys dbC10.nodes := by
  refine ⟨by decide, by decide, by decide⟩

/-- The pre-existing file node of `dbC10`. -/
def fileC10 : Node :=
  { id := "f1", type := .file, name := "Doc"
    content := some { read_doc := blank_rich_doc
                      copy_docs := [blank_rich_doc] } }

theorem C2_import_remap_amended_witness :
    (∃ n', mlookup (explorer_import_bundle genW dbC10 incC2 "qc").nodes
        "f1" = some n' ∧ n'.id = fileC10.id) ∧
    (∃ newid,
      mlookup (build_id_map genW dbC10.nodes (dkeys incC2.nodes)).1 "qc" =
        some newid ∧
      ((mlookup dbC10.nodes "qc").isSome →
        (∃ i, i < (dkeys incC2.nodes).length ∧ newid = genW i) ∧
        ¬ newid ∈ dkeys incC2.nodes) ∧
      (mlookup dbC10.nodes "qc" = none → newid = "qc")) :=
  ⟨(C2_import_remap_amended genW dbC10 incC2 "qc" (by decide)).1 "f1"
    fileC10 (by decide),
   (C2_import_remap_amended genW dbC10 incC2 "qc" (by decide)).2.2 "qc"
    (by decide)⟩

end NotaryQuickCopy

namespace NotaryQuickCopy

/-! ### C5: subtree deletion — reachability infrastructure -/

/-- Key `p` is a folder whose children list contains `x`. -/
def ListsChild (m : List (String × Node)) (p x : String) : Prop :=
  ∃ n, mlookup m p = some n ∧ n.type = NodeType.folder ∧ x ∈ n.children

/-- `m2` answers every lookup either as `m` does or not at all (the store
relation produced by pure removals). -/
def SubMap (m m2 : List (String × Node)) : Prop :=
  ∀ k, mlookup m2 k = mlookup m k ∨ mlookup m2 k = none

/-- A rank function certifying acyclicity: children of folders have
strictly smaller rank. -/
def ChildRankOK (rank : String → Nat) (m : List (String × Node)) : Prop :=
  ∀ b n, mlookup m b = some n → n.type = NodeType.folder →
    ∀ c ∈ n.children, rank c < rank b

/-- The claim's unique-listing invariant: no id is listed by two folders. -/
def UniqueParent (m : List (String × Node)) : Prop :=
  ∀ p q x, ListsChild m p x → ListsChild m q x → p = q

/-- Descendant reachability through folder children, the walk both
`_delete_subtree` and `_collect_subtree` take. -/
inductive Reach (m : List (String × Node)) : String → String → Prop where
  | refl (a : String) : Reach m a a
  | step {a b : String} {n : Node} (c : String) :
      Reach m a b → mlookup m b = some n → n.type = NodeType.folder →
      c ∈ n.children → Reach m a c

theorem SubMap_refl (m : List (String × Node)) : SubMap m m :=
  fun _ => Or.inl rfl

theorem SubMap_trans {m1 m2 m3 : List (String × Node)}
    (h12 : SubMap m1 m2) (h23 : SubMap m2 m3) : SubMap m1 m3 := by
  intro k
  rcases h23 k with h | h
  · rw [h]; exact h12 k
  · exact Or.inr h

theorem SubMap_dremove (m : List (String × Node)) (k0 : String) :
    SubMap m (dremove m k0) := by
  intro k
  by_cases hk : k0 = k
  · subst hk
    exact Or.inr (mlookup_dremove_self _ _)
  · exact Or.inl (mlookup_dremove_ne _ _ _ hk)

theorem SubMap_delete :
    ∀ (fuel : Nat) (m : List (String × Node)) (nid : String),
      SubMap m (delete_subtree fuel m nid) := by
  intro fuel
  induction fuel with
  | zero => intro m nid; exact SubMap_refl m
  | succ fuel ih =>
      intro m nid
      rw [delete_subtree]
      cases hn : mlookup m nid with
      | none => exact SubMap_refl m
      | some node =>
          simp only []
          refine SubMap_trans ?_ (SubMap_dremove _ _)
          split
          · have hfold : ∀ (cs : List String) acc, SubMap m acc →
                SubMap m (cs.foldl (fun a c => delete_subtree fuel a c) acc) := by
              intro cs
              induction cs with
              | nil => intro acc h; exact h
              | cons c rest ihc =>
                  intro acc h
                  rw [List.foldl_cons]
                  exact ihc _ (SubMap_trans h (ih acc c))
            exact hfold _ _ (SubMap_refl m)
          · exact SubMap_refl m

theorem SubMap_foldl_delete (fuel : Nat) (cs : List String) :
    ∀ acc, SubMap acc (cs.foldl (fun a c => delete_subtree fuel a c) acc) := by
  induction cs with
  | nil => intro acc; exact SubMap_refl acc
  | cons c rest ih =>
      intro acc
      rw [List.foldl_cons]
      exact SubMap_trans (SubMap_delete fuel acc c) (ih _)

theorem Reach_trans {m : List (String × Node)} {a b c : String}
    (h1 : Reach m a b) (h2 : Reach m b c) : Reach m a c := by
  induction h2 with
  | refl => exact h1
  | step d hr hlook htype hchild ih => exact Reach.step d ih hlook htype hchild

theorem Reach_mono {m acc : List (String × Node)} (hs : SubMap m acc)
    {a b : String} (h : Reach acc a b) : Reach m a b := by
  induction h with
  | refl => exact Reach.refl _
  | step d hr hlook htype hchild ih =>
      rename_i b0 n0
      rcases hs b0 with heq | hnone
      · rw [heq] at hlook
        exact Reach.step d ih hlook htype hchild
      · rw [hnone] at hlook
        cases hlook

theorem Reach_transport {m acc : List (String × Node)} {c : String}
    (hin : ∀ y, Reach m c y → mlookup acc y = mlookup m y) :
    ∀ {x}, Reach m c x → Reach acc c x := by
  intro x h
  induction h with
  | refl => exact Reach.refl c
  | step d hr hlook htype hchild ih =>
      refine Reach.step d ih ?_ htype hchild
      rw [hin _ hr]
      exact hlook

theorem reach_rank_lt {rank : String → Nat} {m : List (String × Node)}
    (hr : ChildRankOK rank m) {a b : String} (h : Reach m a b) :
    a = b ∨ rank b < rank a := by
  induction h with
  | refl => exact Or.inl rfl
  | step d hrr hlook htype hchild ih =>
      have hlt := hr _ _ hlook htype _ hchild
      rcases ih with heq | hlt2
      · rw [heq]
        exact Or.inr hlt
      · exact Or.inr (lt_trans hlt hlt2)

theorem reach_head_cases {m : List (String × Node)} {a x : String}
    (h : Reach m a x) :
    x = a ∨ ∃ n c, mlookup m a = some n ∧ n.type = NodeType.folder ∧
      c ∈ n.children ∧ Reach m c x := by
  induction h with
  | refl => exact Or.inl rfl
  | step d hr hlook htype hchild ih =>
      rcases ih with heq | ⟨n0, c0, hl0, ht0, hc0, hr0⟩
      · subst heq
        exact Or.inr ⟨_, d, hlook, htype, hchild, Reach.refl d⟩
      · exact Or.inr ⟨n0, c0, hl0, ht0, hc0, Reach.step d hr0 hlook htype hchild⟩

theorem ChildRankOK_sub {rank : String → Nat} {m acc : List (String × Node)}
    (hs : SubMap m acc) (hr : ChildRankOK rank m) : ChildRankOK rank acc := by
  intro b n hl ht c hc
  rcases hs b with heq | hnone
  · rw [heq] at hl
    exact hr b n hl ht c hc
  · rw [hnone] at hl
    cases hl

theorem ListsChild_sub {m acc : List (String × Node)} (hs : SubMap m acc)
    {p x : String} (h : ListsChild acc p x) : ListsChild m p x := by
  obtain ⟨n, hl, ht, hc⟩ := h
  rcases hs p with heq | hnone
  · rw [heq] at hl
    exact ⟨n, hl, ht, hc⟩
  · rw [hnone] at hl
    cases hl

theorem UniqueParent_sub {m acc : List (String × Node)} (hs : SubMap m acc)
    (hu : UniqueParent m) : UniqueParent acc :=
  fun p q x h1 h2 => hu p q x (ListsChild_sub hs h1) (ListsChild_sub hs h2)

theorem mem_dkeys_of_mem {α : Type} {m : List (String × α)}
    {p : String × α} (h : p ∈ m) : p.1 ∈ dkeys m :=
  List.mem_map_of_mem _ h

theorem lookup_of_mem_nodup {α : Type} {m : List (String × α)}
    (hnd : (dkeys m).Nodup) {k : String} {v : α} (h : (k, v) ∈ m) :
    mlookup m k = some v := by
  induction m with
  | nil => cases h
  | cons p rest ih =>
      obtain ⟨k', v'⟩ := p
      have hnd2 : (dkeys rest).Nodup := (List.nodup_cons.mp hnd).2
      have hknot : k' ∉ dkeys rest := (List.nodup_cons.mp hnd).1
      rw [mlookup_cons]
      rcases List.mem_cons.mp h with h1 | h1
      · cases h1
        rw [if_pos rfl]
      · have hk' : k' ≠ k := by
          intro he
          subst he
          exact hknot (mem_dkeys_of_mem h1)
        rw [if_neg hk']
        exact ih hnd2 h1

theorem mem_dmodify_nodup {α : Type} {m : List (String × α)}
    (hnd : (dkeys m).Nodup) {k : String} {f : α → α} {p : String × α}
    (h : p ∈ dmodify m k f) :
    (p ∈ m ∧ p.1 ≠ k) ∨ ∃ v0, mlookup m k = some v0 ∧ p = (k, f v0) := by
  induction m with
  | nil => simp [dmodify] at h
  | cons q rest ih =>
      obtain ⟨k', v'⟩ := q
      have hnd2 : (dkeys rest).Nodup := (List.nodup_cons.mp hnd).2
      have hknot : k' ∉ dkeys rest := (List.nodup_cons.mp hnd).1
      by_cases hk : k' = k
      · subst hk
        rw [dmodify, if_pos rfl] at h
        rcases List.mem_cons.mp h with h1 | h1
        · right
          exact ⟨v', by rw [mlookup_cons, if_pos rfl], h1⟩
        · left
          refine ⟨List.mem_cons_of_mem _ h1, ?_⟩
          intro hpk
          apply hknot
          rw [← hpk]
          exact mem_dkeys_of_mem h1
      · rw [dmodify, if_neg hk] at h
        rcases List.mem_cons.mp h with h1 | h1
        · left
          refine ⟨by rw [h1]; exact List.mem_cons_self _ _, ?_⟩
          rw [h1]
          exact fun he => hk he
        · rcases ih hnd2 h1 with ⟨hm, hne⟩ | ⟨v0, hv0, hp⟩
          · exact Or.inl ⟨List.mem_cons_of_mem _ hm, hne⟩
          · right
            exact ⟨v0, by rw [mlookup_cons, if_neg hk]; exact hv0, hp⟩

theorem dmodify_length {α : Type} (m : List (String × α)) (k : String)
    (f : α → α) : (dmodify m k f).length = m.length := by
  induction m with
  | nil => rfl
  | cons q rest ih =>
      obtain ⟨k', v'⟩ := q
      by_cases hk : k' = k <;> simp [dmodify, hk, ih]

theorem mem_delete_subtree :
    ∀ (fuel : Nat) (m : List (String × Node)) (nid : String)
      {p : String × Node}, p ∈ delete_subtree fuel m nid → p ∈ m := by
  intro fuel
  induction fuel with
  | zero => intro m nid p h; exact h
  | succ fuel ih =>
      intro m nid p h
      rw [delete_subtree] at h
      cases hn : mlookup m nid with
      | none =>
          rw [hn] at h
          exact h
      | some node =>
          rw [hn] at h
          have h2 := mem_dremove h
          by_cases hf : node.type = NodeType.folder
          · rw [if_pos hf] at h2
            have hfold : ∀ (cs : List String) acc,
                p ∈ cs.foldl (fun a c => delete_subtree fuel a c) acc →
                p ∈ acc := by
              intro cs
              induction cs with
              | nil => intro acc hh; exact hh
              | cons c rest ihc =>
                  intro acc hh
                  rw [List.foldl_cons] at hh
                  exact ih _ _ (ihc _ hh)
            exact hfold _ _ h2
          · rw [if_neg hf] at h2
            exact h2

end NotaryQuickCopy

namespace NotaryQuickCopy

/-- Under acyclicity and unique listing, the subtrees of two distinct
children of the same folder are disjoint. -/
theorem reach_disjoint {rank : String → Nat} {m : List (String × Node)}
    (hr : ChildRankOK rank m) (hu : UniqueParent m) {p c₁ c₂ : String}
    (h1 : ListsChild m p c₁) (h2 : ListsChild m p c₂) (hne : c₁ ≠ c₂) :
    ∀ y, Reach m c₁ y → Reach m c₂ y → False := by
  have hrank1 : rank c₁ < rank p := by
    obtain ⟨n1, hl1, ht1, hc1⟩ := h1
    exact hr _ _ hl1 ht1 _ hc1
  have hrank2 : rank c₂ < rank p := by
    obtain ⟨n2, hl2, ht2, hc2⟩ := h2
    exact hr _ _ hl2 ht2 _ hc2
  intro y hy1 hy2
  revert hy1
  induction hy2 with
  | refl =>
      intro hy1
      cases hy1 with
      | refl => exact hne rfl
      | step d hr' hlook htype hchild =>
          rename_i b0 n0
          have hb0 : b0 = p := hu b0 p c₂ ⟨n0, hlook, htype, hchild⟩ h2
          subst hb0
          rcases reach_rank_lt hr hr' with heq | hlt
          · subst heq
            exact absurd hrank1 (lt_irrefl _)
          · omega
  | step d hr' hlook htype hchild ih =>
      rename_i b0 n0
      intro hy1
      cases hy1 with
      | refl =>
          -- d = c₁, listed by b0 and by p
          have hb0 : b0 = p := hu b0 p c₁ ⟨n0, hlook, htype, hchild⟩ h1
          subst hb0
          rcases reach_rank_lt hr hr' with heq | hlt
          · subst heq
            exact absurd hrank2 (lt_irrefl _)
          · omega
      | step d2 hr2 hlook2 htype2 hchild2 =>
          rename_i b1 n1
          have hb1 : b1 = b0 := hu b1 b0 d ⟨n1, hlook2, htype2, hchild2⟩
            ⟨n0, hlook, htype, hchild⟩
          subst hb1
          exact ih hr2

/-- Deleting a subtree leaves every key outside it untouched. -/
theorem delete_subtree_sound :
    ∀ (fuel : Nat) (m : List (String × Node)) (nid k : String),
      ¬ Reach m nid k →
      mlookup (delete_subtree fuel m nid) k = mlookup m k := by
  intro fuel
  induction fuel with
  | zero => intro m nid k _; rfl
  | succ fuel ih =>
      intro m nid k hnr
      rw [delete_subtree]
      cases hn : mlookup m nid with
      | none => rfl
      | some node =>
          simp only []
          have hknid : nid ≠ k := fun he => hnr (he ▸ Reach.refl nid)
          by_cases hf : node.type = NodeType.folder
          · rw [if_pos hf]
            have hfold : ∀ (cs : List String),
                (∀ c ∈ cs, c ∈ node.children) →
                ∀ acc, SubMap m acc → mlookup acc k = mlookup m k →
                mlookup (cs.foldl (fun a c => delete_subtree fuel a c) acc) k =
                  mlookup m k := by
              intro cs
              induction cs with
              | nil => intro _ acc _ hk; exact hk
              | cons c rest ihc =>
                  intro hcs acc hsub hk
                  rw [List.foldl_cons]
                  refine ihc (fun c' hc' => hcs c' (List.mem_cons_of_mem _ hc'))
                    _ (SubMap_trans hsub (SubMap_delete fuel acc c)) ?_
                  have hnrc : ¬ Reach acc c k := by
                    intro hrk
                    apply hnr
                    have hmk : Reach m c k := Reach_mono hsub hrk
                    have h0 : Reach m nid c :=
                      Reach.step c (Reach.refl nid) hn hf
                        (hcs c (List.mem_cons_self _ _))
                    exact Reach_trans h0 hmk
                  rw [ih acc c k hnrc, hk]
            rw [mlookup_dremove_ne _ _ _ hknid]
            exact hfold node.children (fun c h => h) m (SubMap_refl m) rfl
          · rw [if_neg hf]
            exact mlookup_dremove_ne _ _ _ hknid

/-- With enough fuel, deleting a subtree removes every reachable key. -/
theorem delete_subtree_complete (rank : String → Nat) :
    ∀ (fuel : Nat) (m : List (String × Node)) (nid : String),
      ChildRankOK rank m → UniqueParent m → rank nid < fuel →
      ∀ x, Reach m nid x →
        mlookup (delete_subtree fuel m nid) x = none := by
  intro fuel
  induction fuel with
  | zero => intro m nid _ _ hf; exact absurd hf (by omega)
  | succ fuel ih =>
      intro m nid hr hu hf x hx
      rw [delete_subtree]
      cases hn : mlookup m nid with
      | none =>
          rcases reach_head_cases hx with heq | ⟨n, c, hl, _, _, _⟩
          · rw [heq]
            exact hn
          · rw [hn] at hl
            cases hl
      | some node =>
          simp only []
          by_cases hfo : node.type = NodeType.folder
          · rw [if_pos hfo]
            have hLC : ∀ c ∈ node.children, ListsChild m nid c :=
              fun c hc => ⟨node, hn, hfo, hc⟩
            have FOLD : ∀ (cs : List String),
                (∀ c ∈ cs, ListsChild m nid c) →
                ∀ acc, SubMap m acc →
                (∀ c ∈ cs,
                  (∀ y, Reach m c y → mlookup acc y = mlookup m y) ∨
                  (∀ y, Reach m c y → mlookup acc y = none)) →
                ∀ c ∈ cs, ∀ y, Reach m c y →
                  mlookup (cs.foldl (fun a c => delete_subtree fuel a c) acc)
                    y = none := by
              intro cs
              induction cs with
              | nil =>
                  intro _ acc _ _ c hc
                  cases hc
              | cons c₀ rest ihc =>
                  intro hcs acc hsub hinv
                  have hnone0 : ∀ y, Reach m c₀ y →
                      mlookup (delete_subtree fuel acc c₀) y = none := by
                    rcases hinv c₀ (List.mem_cons_self _ _) with hint | hgone
                    · intro y hy
                      have hy' : Reach acc c₀ y := Reach_transport hint hy
                      have hrank0 : rank c₀ < fuel := by
                        obtain ⟨n0, hl0, ht0, hc0⟩ :=
                          hcs c₀ (List.mem_cons_self _ _)
                        have := hr nid n0 hl0 ht0 c₀ hc0
                        omega
                      exact ih acc c₀ (ChildRankOK_sub hsub hr)
                        (UniqueParent_sub hsub hu) hrank0 y hy'
                    · intro y hy
                      rcases SubMap_delete fuel acc c₀ y with heq | hnone
                      · rw [heq]
                        exact hgone y hy
                      · exact hnone
                  have hsub' : SubMap m (delete_subtree fuel acc c₀) :=
                    SubMap_trans hsub (SubMap_delete fuel acc c₀)
                  have hinv' : ∀ c ∈ rest,
                      (∀ y, Reach m c y →
                        mlookup (delete_subtree fuel acc c₀) y =
                          mlookup m y) ∨
                      (∀ y, Reach m c y →
                        mlookup (delete_subtree fuel acc c₀) y = none) := by
                    intro c hc
                    by_cases hcc : c = c₀
                    · subst hcc
                      exact Or.inr hnone0
                    · rcases hinv c (List.mem_cons_of_mem _ hc) with hint | hgone
                      · left
                        intro y hy
                        have hnr : ¬ Reach acc c₀ y := by
                          intro hy0
                          exact reach_disjoint hr hu
                            (hcs c₀ (List.mem_cons_self _ _))
                            (hcs c (List.mem_cons_of_mem _ hc))
                            (fun he => hcc he.symm) y
                            (Reach_mono hsub hy0) hy
                        rw [delete_subtree_sound fuel acc c₀ y hnr]
                        exact hint y hy
                      · right
                        intro y hy
                        rcases SubMap_delete fuel acc c₀ y with heq | hnone
                        · rw [heq]
                          exact hgone y hy
                        · exact hnone
                  intro c hc y hy
                  rw [List.foldl_cons]
                  rcases List.mem_cons.mp hc with heq | hc2
                  · subst heq
                    rcases SubMap_foldl_delete fuel rest
                        (delete_subtree fuel acc c) y with heq2 | hnone
                    · rw [heq2]
                      exact hnone0 y hy
                    · exact hnone
                  · exact ihc
                      (fun c' hc' => hcs c' (List.mem_cons_of_mem _ hc'))
                      _ hsub' hinv' c hc2 y hy
            rcases reach_head_cases hx with heq | ⟨n, c, hl, ht, hc, hrx⟩
            · rw [heq]
              exact mlookup_dremove_self _ _
            · rw [hn] at hl
              cases hl
              by_cases hxnid : x = nid
              · rw [hxnid]
                exact mlookup_dremove_self _ _
              · rw [mlookup_dremove_ne _ _ _ (fun he => hxnid he.symm)]
                exact FOLD node.children hLC m (SubMap_refl m)
                  (fun c' _ => Or.inl (fun y _ => rfl)) c hc x hrx
          · rw [if_neg hfo]
            rcases reach_head_cases hx with heq | ⟨n, c, hl, ht, _, _⟩
            · rw [heq]
              exact mlookup_dremove_self _ _
            · rw [hn] at hl
              cases hl
              exact absurd ht hfo

end NotaryQuickCopy

namespace NotaryQuickCopy

theorem find_parent_key_some {m : List (String × Node)} {nid pk : String}
    (h : find_parent_key m nid = some pk) :
    ∃ par, (pk, par) ∈ m ∧ par.type = NodeType.folder ∧
      nid ∈ par.children := by
  rw [find_parent_key] at h
  cases hf : m.find?
      (fun p => p.2.type = NodeType.folder && nid ∈ p.2.children) with
  | none => rw [hf] at h; cases h
  | some a =>
      obtain ⟨k0, par⟩ := a
      rw [hf] at h
      cases h
      have hmem := List.mem_of_find?_eq_some hf
      have hpred := List.find?_some hf
      simp only [Bool.and_eq_true, decide_eq_true_eq] at hpred
      exact ⟨par, hmem, hpred.1, hpred.2⟩

theorem find_parent_key_none {m : List (String × Node)} {nid : String}
    (h : find_parent_key m nid = none) :
    ∀ p ∈ m, p.2.type = NodeType.folder → nid ∉ p.2.children := by
  rw [find_parent_key] at h
  cases hf : m.find?
      (fun p => p.2.type = NodeType.folder && nid ∈ p.2.children) with
  | some a => rw [hf] at h; cases h
  | none =>
      intro p hp ht hc
      have := List.find?_eq_none.mp hf p hp
      simp [ht, hc] at this

theorem parent_filtered_dkeys (m : List (String × Node)) (nid : String) :
    dkeys (parent_filtered m nid) = dkeys m := by
  rw [parent_filtered]
  cases hpk : find_parent_key m nid with
  | none => rfl
  | some pk => exact dkeys_dmodify _ _ _

theorem parent_filtered_length (m : List (String × Node)) (nid : String) :
    (parent_filtered m nid).length = m.length := by
  rw [parent_filtered]
  cases hpk : find_parent_key m nid with
  | none => rfl
  | some pk => exact dmodify_length _ _ _

theorem parent_filtered_no_lister {m : List (String × Node)} {nid : String}
    (hnd : (dkeys m).Nodup)
    (hu : ∀ p ∈ m, ∀ q ∈ m, p.2.type = NodeType.folder →
      q.2.type = NodeType.folder → ∀ x, x ∈ p.2.children →
      x ∈ q.2.children → p.1 = q.1) :
    ∀ p ∈ parent_filtered m nid, p.2.type = NodeType.folder →
      nid ∉ p.2.children := by
  intro p hp ht hc
  rw [parent_filtered] at hp
  cases hpk : find_parent_key m nid with
  | none =>
      rw [hpk] at hp
      exact find_parent_key_none hpk p hp ht hc
  | some pk =>
      rw [hpk] at hp
      obtain ⟨par, hparmem, hpart, hparc⟩ := find_parent_key_some hpk
      rcases mem_dmodify_nodup hnd hp with ⟨hpm, hpne⟩ | ⟨v0, hv0, hpeq⟩
      · exact hpne (hu p hpm (pk, par) hparmem ht hpart nid hc hparc)
      · rw [hpeq] at hc
        have := List.of_mem_filter hc
        simp at this

theorem parent_filtered_lookup {m : List (String × Node)} {nid k : String}
    (hk : ∀ pk, find_parent_key m nid = some pk → k ≠ pk) :
    mlookup (parent_filtered m nid) k = mlookup m k := by
  rw [parent_filtered]
  cases hpk : find_parent_key m nid with
  | none => rfl
  | some pk =>
      exact mlookup_dmodify_ne _ _ _ _ (fun he => hk pk hpk he.symm)

theorem parent_filtered_rank {rank : String → Nat}
    {m : List (String × Node)} {nid : String} (hnd : (dkeys m).Nodup)
    (hr : ChildRankOK rank m) : ChildRankOK rank (parent_filtered m nid) := by
  intro b n hl ht c hc
  rw [parent_filtered] at hl
  cases hpk : find_parent_key m nid with
  | none =>
      rw [hpk] at hl
      exact hr b n hl ht c hc
  | some pk =>
      rw [hpk] at hl
      by_cases hb : pk = b
      · subst hb
        rw [mlookup_dmodify_self] at hl
        obtain ⟨par, hparmem, hpart, hparc⟩ := find_parent_key_some hpk
        have hlp : mlookup m pk = some par := lookup_of_mem_nodup hnd hparmem
        rw [hlp] at hl
        cases hl
        exact hr pk par hlp hpart c (List.mem_of_mem_filter hc)
      · rw [mlookup_dmodify_ne _ _ _ _ hb] at hl
        exact hr b n hl ht c hc

theorem parent_filtered_lists {m : List (String × Node)} {nid : String}
    (hnd : (dkeys m).Nodup) {p x : String}
    (h : ListsChild (parent_filtered m nid) p x) : ListsChild m p x := by
  obtain ⟨n, hl, ht, hc⟩ := h
  rw [parent_filtered] at hl
  cases hpk : find_parent_key m nid with
  | none =>
      rw [hpk] at hl
      exact ⟨n, hl, ht, hc⟩
  | some pk =>
      rw [hpk] at hl
      by_cases hb : pk = p
      · subst hb
        rw [mlookup_dmodify_self] at hl
        obtain ⟨par, hparmem, hpart, hparc⟩ := find_parent_key_some hpk
        have hlp : mlookup m pk = some par := lookup_of_mem_nodup hnd hparmem
        rw [hlp] at hl
        cases hl
        exact ⟨par, hlp, hpart, List.mem_of_mem_filter hc⟩
      · rw [mlookup_dmodify_ne _ _ _ _ hb] at hl
        exact ⟨n, hl, ht, hc⟩

theorem parent_filtered_unique {m : List (String × Node)} {nid : String}
    (hnd : (dkeys m).Nodup) (hu : UniqueParent m) :
    UniqueParent (parent_filtered m nid) :=
  fun p q x h1 h2 =>
    hu p q x (parent_filtered_lists hnd h1) (parent_filtered_lists hnd h2)

theorem parent_filtered_reach {rank : String → Nat}
    {m : List (String × Node)} {nid : String} (hnd : (dkeys m).Nodup)
    (hr : ChildRankOK rank m) {x : String} (h : Reach m nid x) :
    Reach (parent_filtered m nid) nid x := by
  induction h with
  | refl => exact Reach.refl nid
  | step d hr' hlook htype hchild ih =>
      rename_i b0 n0
      refine Reach.step d ih ?_ htype hchild
      rw [parent_filtered]
      cases hpk : find_parent_key m nid with
      | none => exact hlook
      | some pk =>
          have hbpk : pk ≠ b0 := by
            intro he
            subst he
            obtain ⟨par, hparmem, hpart, hparc⟩ := find_parent_key_some hpk
            have hlp : mlookup m pk = some par := lookup_of_mem_nodup hnd hparmem
            have hlt : rank nid < rank pk := hr pk par hlp hpart nid hparc
            rcases reach_rank_lt hr hr' with heq | hlt2
            · rw [heq] at hlt
              omega
            · omega
          rw [mlookup_dmodify_ne _ _ _ _ hbpk]
          exact hlook

theorem parent_filtered_mem_lister {m : List (String × Node)} {nid : String}
    (hnd : (dkeys m).Nodup) {p : String × Node}
    (hp : p ∈ parent_filtered m nid) (hpf : p.2.type = NodeType.folder)
    {x : String} (hx : x ∈ p.2.children) :
    ∃ v0, (p.1, v0) ∈ m ∧ v0.type = NodeType.folder ∧ x ∈ v0.children := by
  rw [parent_filtered] at hp
  cases hpk : find_parent_key m nid with
  | none =>
      rw [hpk] at hp
      exact ⟨p.2, hp, hpf, hx⟩
  | some pk =>
      rw [hpk] at hp
      rcases mem_dmodify_nodup hnd hp with ⟨hm, _⟩ | ⟨v0, hv0, hpeq⟩
      · exact ⟨p.2, hm, hpf, hx⟩
      · refine ⟨v0, ?_, ?_, ?_⟩
        · rw [hpeq]
          exact mem_of_mlookup hv0
        · rw [hpeq] at hpf
          exact hpf
        · rw [hpeq] at hx
          exact List.mem_of_mem_filter hx

theorem reach_nonfolder {m : List (String × Node)} {nid x : String}
    {node0 : Node} (hsel : mlookup m nid = some node0)
    (hnf : node0.type ≠ NodeType.folder) (h : Reach m nid x) : x = nid := by
  rcases reach_head_cases h with heq | ⟨n, c, hl, ht, _, _⟩
  · exact heq
  · rw [hsel] at hl
    cases hl
    exact absurd ht hnf

theorem rsft_lookup (db : Database) (fid k : String)
    (hk1 : k ≠ db.favorites_root_id)
    (hk2 : ∀ n, mlookup db.nodes k = some n → n.type ≠ NodeType.shortcut) :
    mlookup (remove_shortcut_for_target db fid).nodes k =
      mlookup db.nodes k := by
  rw [remove_shortcut_for_target]
  cases hfav : mlookup db.nodes db.favorites_root_id with
  | none => rfl
  | some fav_root =>
      simp only []
      split
      · cases hcid : fav_root.children.find? (favScanPred db.nodes fid) with
        | none => rfl
        | some cid =>
            simp only []
            have hcidk : cid ≠ k := by
              intro he
              have hpred := List.find?_some hcid
              rw [favScanPred_iff] at hpred
              obtain ⟨n, hln, htn, _⟩ := hpred
              subst he
              exact hk2 n hln htn
            rw [mlookup_dremove_ne _ _ _ hcidk,
              mlookup_dmodify_ne _ _ _ _ (fun he => hk1 he.symm)]
      · rfl

theorem rsft_mem (db : Database) (fid : String)
    (hnd : (dkeys db.nodes).Nodup) {p : String × Node}
    (hp : p ∈ (remove_shortcut_for_target db fid).nodes) :
    p ∈ db.nodes ∨
    ∃ v0, mlookup db.nodes p.1 = some v0 ∧ p.2.type = v0.type ∧
      ∀ x ∈ p.2.children, x ∈ v0.children := by
  rw [remove_shortcut_for_target] at hp
  split at hp
  · exact Or.inl hp
  · split at hp
    · split at hp
      · have hp2 := mem_dremove hp
        rcases mem_dmodify_nodup hnd hp2 with ⟨hm, _⟩ | ⟨v0, hv0, hpeq⟩
        · exact Or.inl hm
        · right
          refine ⟨v0, ?_, ?_, ?_⟩
          · rw [hpeq]
            exact hv0
          · rw [hpeq]
          · rw [hpeq]
            intro x hx
            exact List.mem_of_mem_erase hx
      · exact Or.inl hp
    · exact Or.inl hp

end NotaryQuickCopy

namespace NotaryQuickCopy

/-- Deleting a selected shortcut: gone from the mapping, and (given that
only the Favorites root listed it) no remaining folder references it. -/
theorem delete_shortcut_case (db : Database) (node_id : String)
    (node0 : Node) (hsel : mlookup db.nodes node_id = some node0)
    (hty : node0.type = NodeType.shortcut) (hnd : (dkeys db.nodes).Nodup)
    (hsc : ∀ p ∈ db.nodes, p.2.type = NodeType.folder →
      node_id ∈ p.2.children → p.1 = db.favorites_root_id) :
    (∀ x, Reach db.nodes node_id x →
      mlookup (remove_shortcut db node_id).nodes x = none) ∧
    (∀ p ∈ (remove_shortcut db node_id).nodes,
      p.2.type = NodeType.folder → ∀ x, Reach db.nodes node_id x →
        ¬ x ∈ p.2.children) := by
  have hnf : node0.type ≠ NodeType.folder := by
    rw [hty]
    intro h
    cases h
  constructor
  · intro x hx
    have hxe := reach_nonfolder hsel hnf hx
    subst hxe
    rw [remove_shortcut]
    exact mlookup_dremove_self _ _
  · intro p hp hpf x hx hxc
    have hxe := reach_nonfolder hsel hnf hx
    subst hxe
    rw [remove_shortcut] at hp
    have hp1 := mem_dremove hp
    split at hp1
    · rename_i fav_root hfav
      split at hp1
      · rcases mem_dmodify_nodup hnd hp1 with ⟨hm, hne⟩ | ⟨v0, hv0, hpeq⟩
        · exact hne (hsc p hm hpf hxc)
        · rw [hpeq] at hxc
          have := List.of_mem_filter hxc
          simp at this
      · rename_i hft
        have hkey := hsc p hp1 hpf hxc
        have hlp : mlookup db.nodes p.1 = some p.2 :=
          lookup_of_mem_nodup hnd hp1
        rw [hkey, hfav] at hlp
        injection hlp with h2
        rw [h2] at hft
        exact hft hpf
    · rename_i hfav
      have hkey := hsc p hp1 hpf hxc
      rw [mlookup_eq_none_iff] at hfav
      exact hfav (hkey ▸ mem_dkeys_of_mem hp1)
end NotaryQuickCopy

namespace NotaryQuickCopy

/-- Deleting a selected file: removed from the mapping, the favorites
shortcut dropped, and no remaining folder references it. -/
theorem delete_file_case (db : Database) (node_id : String) (node0 : Node)
    (hsel : mlookup db.nodes node_id = some node0)
    (hty : node0.type = NodeType.file)
    (hroot1 : node_id ≠ db.favorites_root_id)
    (hnd : (dkeys db.nodes).Nodup)
    (huniq : ∀ p ∈ db.nodes, ∀ q ∈ db.nodes, p.2.type = NodeType.folder →
      q.2.type = NodeType.folder → ∀ x, x ∈ p.2.children →
      x ∈ q.2.children → p.1 = q.1) :
    (∀ x, Reach db.nodes node_id x →
      mlookup (delete_nonshortcut db node_id node0).nodes x = none) ∧
    (∀ p ∈ (delete_nonshortcut db node_id node0).nodes,
      p.2.type = NodeType.folder → ∀ x, Reach db.nodes node_id x →
        ¬ x ∈ p.2.children) := by
  have hnf : node0.type ≠ NodeType.folder := by
    rw [hty]
    intro h
    cases h
  have hknid : ∀ pk, find_parent_key db.nodes node_id = some pk →
      node_id ≠ pk := by
    intro pk hpk he
    obtain ⟨par, hparmem, hpart, _⟩ := find_parent_key_some hpk
    have hlp := lookup_of_mem_nodup hnd hparmem
    rw [← he, hsel] at hlp
    injection hlp with h2
    rw [← h2] at hpart
    exact hnf hpart
  have h1 : mlookup (parent_filtered db.nodes node_id) node_id =
      some node0 := by
    rw [parent_filtered_lookup hknid]
    exact hsel
  have hdb1n : ({ db with nodes := parent_filtered db.nodes node_id } :
      Database).nodes = parent_filtered db.nodes node_id := rfl
  have hrl := rsft_lookup
    { db with nodes := parent_filtered db.nodes node_id } node_id node_id
    (show node_id ≠ ({ db with
        nodes := parent_filtered db.nodes node_id } :
        Database).favorites_root_id from hroot1)
    (by
      intro n hln
      rw [hdb1n, h1] at hln
      injection hln with h2
      rw [← h2, hty]
      intro h3
      cases h3)
  have hF1 : mlookup (remove_shortcut_for_target
      { db with nodes := parent_filtered db.nodes node_id }
      node_id).nodes node_id = some node0 := by
    rw [hrl, hdb1n, h1]
  have hres : (delete_nonshortcut db node_id node0).nodes =
      delete_subtree
        ((remove_shortcut_for_target
            { db with nodes := parent_filtered db.nodes node_id }
            node_id).nodes.length + 1)
        (remove_shortcut_for_target
            { db with nodes := parent_filtered db.nodes node_id }
            node_id).nodes node_id := by
    simp only [delete_nonshortcut]
    rw [if_pos hty]
  have hdel : delete_subtree
      ((remove_shortcut_for_target
          { db with nodes := parent_filtered db.nodes node_id }
          node_id).nodes.length + 1)
      (remove_shortcut_for_target
          { db with nodes := parent_filtered db.nodes node_id }
          node_id).nodes node_id =
      dremove (remove_shortcut_for_target
          { db with nodes := parent_filtered db.nodes node_id }
          node_id).nodes node_id := by
    rw [delete_subtree]
    simp only [hF1]
    rw [if_neg hnf]
  constructor
  · intro x hx
    have hxe := reach_nonfolder hsel hnf hx
    rw [hxe, hres, hdel]
    exact mlookup_dremove_self _ _
  · intro p hp hpf x hx hxc
    have hxe := reach_nonfolder hsel hnf hx
    rw [hxe] at hxc
    rw [hres, hdel] at hp
    have hp2 := mem_dremove hp
    have hnd1 : (dkeys ({ db with
        nodes := parent_filtered db.nodes node_id } : Database).nodes).Nodup := by
      rw [hdb1n, parent_filtered_dkeys]
      exact hnd
    rcases rsft_mem _ node_id hnd1 hp2 with hm | ⟨v0, hv0, hvt, hvc⟩
    · rw [hdb1n] at hm
      exact parent_filtered_no_lister hnd huniq p hm hpf hxc
    · rw [hdb1n] at hv0
      have hxv := hvc _ hxc
      have hv0mem := mem_of_mlookup hv0
      have hv0f : v0.type = NodeType.folder := by
        rw [← hvt]
        exact hpf
      exact parent_filtered_no_lister hnd huniq (p.1, v0) hv0mem hv0f hxv

end NotaryQuickCopy

namespace NotaryQuickCopy

/-- Deleting a selected folder: under acyclicity (a rank function) and
unique listing, the whole subtree is removed from the mapping and no
remaining folder lists any of its members. -/
theorem delete_folder_case (db : Database) (node_id : String) (node0 : Node)
    (rank : String → Nat)
    (hty : node0.type = NodeType.folder)
    (hnd : (dkeys db.nodes).Nodup)
    (hrank : ∀ p ∈ db.nodes, p.2.type = NodeType.folder →
      ∀ c ∈ p.2.children, rank c < rank p.1)
    (huniq : ∀ p ∈ db.nodes, ∀ q ∈ db.nodes, p.2.type = NodeType.folder →
      q.2.type = NodeType.folder → ∀ x, x ∈ p.2.children →
      x ∈ q.2.children → p.1 = q.1)
    (hfuel : rank node_id ≤ db.nodes.length) :
    (∀ x, Reach db.nodes node_id x →
      mlookup (delete_nonshortcut db node_id node0).nodes x = none) ∧
    (∀ p ∈ (delete_nonshortcut db node_id node0).nodes,
      p.2.type = NodeType.folder → ∀ x, Reach db.nodes node_id x →
        ¬ x ∈ p.2.children) := by
  have hrL : ChildRankOK rank db.nodes := fun b n hl ht c hc =>
    hrank (b, n) (mem_of_mlookup hl) ht c hc
  have huL : UniqueParent db.nodes := by
    intro p q x h1 h2
    obtain ⟨n1, hl1, ht1, hc1⟩ := h1
    obtain ⟨n2, hl2, ht2, hc2⟩ := h2
    exact huniq (p, n1) (mem_of_mlookup hl1) (q, n2) (mem_of_mlookup hl2)
      ht1 ht2 x hc1 hc2
  have hfile : node0.type ≠ NodeType.file := by
    rw [hty]
    intro h
    cases h
  have hres : (delete_nonshortcut db node_id node0).nodes =
      delete_subtree ((parent_filtered db.nodes node_id).length + 1)
        (parent_filtered db.nodes node_id) node_id := by
    simp only [delete_nonshortcut]
    rw [if_neg hfile]
  have hr1 : ChildRankOK rank (parent_filtered db.nodes node_id) :=
    parent_filtered_rank hnd hrL
  have hu1 : UniqueParent (parent_filtered db.nodes node_id) :=
    parent_filtered_unique hnd huL
  have hfuel1 : rank node_id < (parent_filtered db.nodes node_id).length + 1 := by
    rw [parent_filtered_length]
    omega
  have hDEL := delete_subtree_complete rank
    ((parent_filtered db.nodes node_id).length + 1)
    (parent_filtered db.nodes node_id) node_id hr1 hu1 hfuel1
  have htr : ∀ x, Reach db.nodes node_id x →
      Reach (parent_filtered db.nodes node_id) node_id x :=
    fun x hx => parent_filtered_reach hnd hrL hx
  constructor
  · intro x hx
    rw [hres]
    exact hDEL x (htr x hx)
  · intro p hp hpf x hx hxc
    rw [hres] at hp
    have hpm1 : p ∈ parent_filtered db.nodes node_id :=
      mem_delete_subtree _ _ _ hp
    by_cases hxid : x = node_id
    · rw [hxid] at hxc
      exact parent_filtered_no_lister hnd huniq p hpm1 hpf hxc
    · cases hx with
      | refl => exact hxid rfl
      | step d hr2 hlook2 htype2 hchild2 =>
          rename_i b0 n0
          obtain ⟨v0, hv0mem, hv0t, hv0c⟩ :=
            parent_filtered_mem_lister hnd hpm1 hpf hxc
          have hb : p.1 = b0 := huniq (p.1, v0) hv0mem (b0, n0)
            (mem_of_mlookup hlook2) hv0t htype2 x hv0c hchild2
          have hbnone := hDEL b0 (htr b0 hr2)
          have hmemk : p.1 ∈ dkeys (delete_subtree
              ((parent_filtered db.nodes node_id).length + 1)
              (parent_filtered db.nodes node_id) node_id) :=
            mem_dkeys_of_mem hp
          rw [hb] at hmemk
          rw [mlookup_eq_none_iff] at hbnone
          exact hbnone hmemk

end NotaryQuickCopy

namespace NotaryQuickCopy

/-- C5 (amended): for a non-root node in a store satisfying the tree
invariant — acyclicity witnessed by a rank function and unique listing —
PLUS, when the selected node is a shortcut, the hypothesis that only the
Favorites root lists it, `ExplorerView.delete_selected` removes the node
and every descendant from the mapping and leaves no folder holding a
child reference into the deleted subtree. -/
theorem C5_delete_subtree_amended (db : Database) (node_id : String)
    (rank : String → Nat) (node0 : Node)
    (hsel : mlookup db.nodes node_id = some node0)
    (hroot1 : node_id ≠ db.favorites_root_id)
    (hroot2 : node_id ≠ db.quickcopy_root_id)
    (hnd : (dkeys db.nodes).Nodup)
    (hrank : ∀ p ∈ db.nodes, p.2.type = NodeType.folder →
      ∀ c ∈ p.2.children, rank c < rank p.1)
    (huniq : ∀ p ∈ db.nodes, ∀ q ∈ db.nodes, p.2.type = NodeType.folder →
      q.2.type = NodeType.folder → ∀ x, x ∈ p.2.children →
      x ∈ q.2.children → p.1 = q.1)
    (hfuel : rank node_id ≤ db.nodes.length)
    (hsc : node0.type = NodeType.shortcut → ∀ p ∈ db.nodes,
      p.2.type = NodeType.folder → node_id ∈ p.2.children →
      p.1 = db.favorites_root_id) :
    (∀ x, Reach db.nodes node_id x →
      mlookup (delete_selected db node_id).nodes x = none) ∧
    (∀ p ∈ (delete_selected db node_id).nodes,
      p.2.type = NodeType.folder → ∀ x, Reach db.nodes node_id x →
        ¬ x ∈ p.2.children) := by
  have hguard : ¬ (node_id = db.favorites_root_id ∨
      node_id = db.quickcopy_root_id) := fun h => h.elim hroot1 hroot2
  cases hty : node0.type with
  | shortcut =>
      have heq : delete_selected db node_id = remove_shortcut db node_id := by
        rw [delete_selected]
        simp only [hsel]
        rw [if_neg hguard, if_pos hty]
      rw [heq]
      exact delete_shortcut_case db node_id node0 hsel hty hnd (hsc hty)
  | file =>
      have heq : delete_selected db node_id =
          delete_nonshortcut db node_id node0 := by
        rw [delete_selected]
        simp only [hsel]
        rw [if_neg hguard, if_neg (show ¬ node0.type = NodeType.shortcut by
          rw [hty]; intro h; cases h)]
      rw [heq]
      exact delete_file_case db node_id node0 hsel hty hroot1 hnd huniq
  | folder =>
      have heq : delete_selected db node_id =
          delete_nonshortcut db node_id node0 := by
        rw [delete_selected]
        simp only [hsel]
        rw [if_neg hguard, if_neg (show ¬ node0.type = NodeType.shortcut by
          rw [hty]; intro h; cases h)]
      rw [heq]
      exact delete_folder_case db node_id node0 rank hty hnd hrank huniq hfuel

/-- A store with a shortcut living under an ordinary folder (loadable via
`db_from_dict`, even though the UI only creates shortcuts in Favorites). -/
def dbC5 : Database :=
  { quickcopy_root_id := "qc", favorites_root_id := "fav"
    nodes :=
      [("fav", { id := "fav", type := .folder, name := "Favorites" }),
       ("qc", { id := "qc", type := .folder, name := "QuickCopy"
                children := ["F", "f1"] }),
       ("F", { id := "F", type := .folder, name := "Folder"
               children := ["s"] }),
       ("f1", { id := "f1", type := .file, name := "Doc"
                content := some { read_doc := blank_rich_doc
                                  copy_docs := [blank_rich_doc] } }),
       ("s", { id := "s", type := .shortcut, name := "Doc"
               target_id := some "f1" })] }

/-- C5 (counterexample to the frozen claim): `dbC5` satisfies the claim's
tree invariant (unique listing, acyclic), yet deleting the shortcut "s"
(a child of the ordinary folder "F") removes it from the mapping while
"F" keeps the dangling child reference "s". -/
theorem C5_delete_subtree_counterexample :
    mlookup (delete_selected dbC5 "s").nodes "s" = none ∧
    mlookup (delete_selected dbC5 "s").nodes "F" =
      some { id := "F", type := .folder, name := "Folder"
             children := ["s"] } ∧
    (∀ p ∈ dbC5.nodes, ∀ q ∈ dbC5.nodes, p.2.type = NodeType.folder →
      q.2.type = NodeType.folder → ∀ x, x ∈ p.2.children →
      x ∈ q.2.children → p.1 = q.1) := by
  refine ⟨by decide, by decide, by decide⟩

/-- The rank function certifying `dbC5` acyclic. -/
def rankC5 : String → Nat :=
  fun k => if k = "qc" then 3 else if k = "F" then 2 else 1

/-- The folder node "F" of `dbC5`. -/
def nodeFC5 : Node :=
  { id := "F", type := .folder, name := "Folder", children := ["s"] }

theorem C5_delete_subtree_amended_witness :
    mlookup (delete_selected dbC5 "F").nodes "s" = none :=
  (C5_delete_subtree_amended dbC5 "F" rankC5 nodeFC5 (by decide) (by decide)
      (by decide) (by decide) (by decide) (by decide) (by decide)
      (by decide)).1 "s"
    (@Reach.step dbC5.nodes "F" "F" nodeFC5 "s" (Reach.refl "F")
      (by decide) (by decide) (by decide))

end NotaryQuickCopy
